import Mathlib

/-!
Shallow embedding of `twitpng` (src/main.cpp): a quadtree image sketcher.
Machine integers are modelled as `Nat`/`Int` (with explicit `% 2^64` where
`size_t` overflow matters), fallible C++ code (null dereferences, reads
outside an allocation, thrown `runtime_error`s) is modelled with
`Option`/`Except`.
-/

namespace TwitPng

/-- `QuadTree::Type` (src/main.cpp:93-99): UNDEFINED_TREE = -1, BLACK_TREE = 0,
GREY_TREE = 1, WHITE_TREE = 2, SPLIT_TREE = 3. -/
inductive Ty where
  | undef
  | black
  | grey
  | white
  | split
deriving DecidableEq, Repr

/-- The numeric value of the `Type` enum constant. -/
def tyVal : Ty → Int
  | .undef => -1
  | .black => 0
  | .grey => 1
  | .white => 2
  | .split => 3

/-- True for the three leaf categories BLACK/GREY/WHITE. -/
def isCat : Ty → Bool
  | .black => true
  | .grey => true
  | .white => true
  | _ => false

/-- A `QuadTree` node (src/main.cpp:90-326).  A node holds a `type` tag and a
`children` array of four `shared_ptr`s.  During construction the four child
pointers are either all set (`node`) or all left null (`leaf`), and no code
path ever resets them afterwards (collapsing a split only assigns `type`), so
every reachable object state is captured by these two shapes. -/
inductive QuadTree where
  | leaf (ty : Ty)
  | node (ty : Ty) (c0 c1 c2 c3 : QuadTree)
deriving DecidableEq, Repr

namespace QuadTree

/-- The `type` field of a node. -/
def ty : QuadTree → Ty
  | .leaf t => t
  | .node t _ _ _ _ => t

/-- Whether the node's four child pointers are set. -/
def isNode : QuadTree → Bool
  | .leaf _ => false
  | .node _ _ _ _ _ => true

/-- Assign the `type` field, leaving the children untouched
(this is all `merge_leaves` / `merge_with_sibblings` ever mutate). -/
def setTy : QuadTree → Ty → QuadTree
  | .leaf _, t => .leaf t
  | .node _ c0 c1 c2 c3, t => .node t c0 c1 c2 c3

end QuadTree

/-- Errors: each constructor stands for one fatal C++ behaviour — a thrown
`runtime_error` or an undefined-behaviour null/out-of-bounds access. -/
inductive Err where
  | undefinedTree      -- "… on undefined tree"
  | nullChild          -- dereferencing a null child pointer
  | nullSibbling       -- "merge_with_sibblings() with null sibbling"
  | nonLeaf            -- "merge_with_sibblings() on non-leaf"
  | invalidMean        -- "merge_with_sibblings() merged to invalid type"
  | danglingRef        -- locking / following a reference to a missing node
  | hopelesslyComplex  -- "image is hopelessly complex; try a smaller cell size"
  | oobRead            -- reading outside an allocation
deriving DecidableEq, Repr

/-- `Matrix<T>` (src/main.cpp:13-65): `width`, `height` and a flat allocation
of `width * height` cells addressed as `data[y * width + x]`.  The data is a
total function; reads are guarded by the allocation bound (an access past the
allocation is C++ undefined behaviour and yields `none` here). -/
structure Matrix where
  width : ℕ
  height : ℕ
  data : ℕ → ℕ

/-- `Matrix::operator()` const (src/main.cpp:43-45): `data[y * width + x]`,
`none` when the flat index falls outside the allocation. -/
def mget (m : Matrix) (x y : ℕ) : Option ℕ :=
  if y * m.width + x < m.width * m.height then some (m.data (y * m.width + x)) else none

/-- `Matrix::operator()` non-const (src/main.cpp:39-41) used as a write
target: store at flat index `y * width + x`. -/
def mset (m : Matrix) (x y : ℕ) (v : ℕ) : Matrix :=
  { m with data := fun i => if i = y * m.width + x then v else m.data i }

/-- `next_greater_power_of_2` (src/main.cpp:67-76) instantiated at
`size_t` (64-bit): decrement (wrapping), smear with shifts 1,2,4,8,16, add 1
(wrapping). -/
def next_greater_power_of_2 (n0 : ℕ) : ℕ :=
  let n1 := (n0 + (2 ^ 64 - 1)) % 2 ^ 64
  let n2 := n1 ||| (n1 >>> 1)
  let n3 := n2 ||| (n2 >>> 2)
  let n4 := n3 ||| (n3 >>> 4)
  let n5 := n4 ||| (n4 >>> 8)
  let n6 := n5 ||| (n5 >>> 16)
  (n6 + 1) % 2 ^ 64

/-- `make_square` (src/main.cpp:78-88): round both dimensions up to powers of
two, allocate a zero-filled `size × size` output, and copy
`input(x, y)` to `output(x*size/width, y*size/height)` for
`y < height`, `x < width` (note: `width`/`height` are the *rounded*
dimensions, so the reads can leave the input's allocation). -/
def make_square (input : Matrix) : Option Matrix :=
  let width := next_greater_power_of_2 input.width
  let height := next_greater_power_of_2 input.height
  let size := max width height
  let output : Matrix := ⟨size, size, fun _ => 0⟩
  (List.range height).foldlM
    (fun acc y =>
      (List.range width).foldlM
        (fun acc2 x => do
          let v ← mget input x y
          pure (mset acc2 (x * size / width) (y * size / height) v))
        acc)
    output

/-- `QuadTree::minimum_cell_size` default (src/main.cpp:328). -/
def minimum_cell_size : ℕ := 64

/-- `QuadTree::maximum_encoded_size` (src/main.cpp:320). -/
def maximum_encoded_size : ℕ := 903

/-- The classification in `QuadTree::init` (src/main.cpp:204-207):
`value < 255*1/5 ? BLACK : value < 255*3/5 ? GREY : WHITE`. -/
def classify (v : ℕ) : Ty :=
  if v < 255 * 1 / 5 then .black
  else if v < 255 * 3 / 5 then .grey
  else .white

/-- `QuadTree::init` (src/main.cpp:194-218) with structural recursion on a
fuel bound (so the definition evaluates inside the kernel): at or below the
minimum cell size read the sample at the region's top-left corner `(x, y)`
and classify it; otherwise build four children over the half-size quadrants
and tag the node SPLIT.  `none` when a sample read leaves the grid's
allocation.  The recursion halves `size`, so `size + 1` units of fuel (what
`buildQT` supplies) can never run out: the `0` case is unreachable from
`buildQT`. -/
def buildQTF : ℕ → Matrix → ℕ → ℕ → ℕ → ℕ → Option QuadTree
  | 0, _, _, _, _, _ => none
  | f + 1, m, x, y, size, mcs =>
    if size ≤ mcs then
      match mget m x y with
      | none => none
      | some v => some (.leaf (classify v))
    else
      let half := size / 2
      do
        let c0 ← buildQTF f m x y half mcs
        let c1 ← buildQTF f m (x + half) y half mcs
        let c2 ← buildQTF f m x (y + half) half mcs
        let c3 ← buildQTF f m (x + half) (y + half) half mcs
        some (.node .split c0 c1 c2 c3)

/-- `QuadTree::init` (src/main.cpp:194-218): see `buildQTF`. -/
def buildQT (m : Matrix) (x y size mcs : ℕ) : Option QuadTree :=
  buildQTF (size + 1) m x y size mcs

/-- `QuadTree::encoded_size` (src/main.cpp:109-125): 2 per leaf-typed node,
the sum over the (non-null) children for a SPLIT-typed node, a thrown error
on UNDEFINED. -/
def encodedSize : QuadTree → Except Err ℕ
  | .leaf t =>
    match t with
    | .undef => .error .undefinedTree
    | .split => .ok 0            -- all four children are null and are skipped
    | _ => .ok 2
  | .node t c0 c1 c2 c3 =>
    match t with
    | .undef => .error .undefinedTree
    | .split => do
      let s0 ← encodedSize c0
      let s1 ← encodedSize c1
      let s2 ← encodedSize c2
      let s3 ← encodedSize c3
      pure (s0 + s1 + s2 + s3)
    | _ => .ok 2

/-- `QuadTree::mean_type` (src/main.cpp:238-253): a leaf category is its own
mean; a SPLIT-typed node averages its four children's means with C++ `int`
division (`Int.tdiv`, truncation toward zero).  On a SPLIT-typed node with null children the C++
dereferences null. -/
def meanType : QuadTree → Except Err Int
  | .leaf t =>
    match t with
    | .undef => .error .undefinedTree
    | .split => .error .nullChild
    | _ => .ok (tyVal t)
  | .node t c0 c1 c2 c3 =>
    match t with
    | .undef => .error .undefinedTree
    | .split => do
      let m0 ← meanType c0
      let m1 ← meanType c1
      let m2 ← meanType c2
      let m3 ← meanType c3
      pure ((m0 + m1 + m2 + m3).tdiv 4)
    | _ => .ok (tyVal t)

/-- `std::sort`'s insertion of one element, ordering `Type` values by their
numeric enum value. -/
def insertTy (a : Ty) : List Ty → List Ty
  | [] => [a]
  | b :: l => if tyVal a ≤ tyVal b then a :: b :: l else b :: insertTy a l

/-- `std::sort(begin(types), end(types))` on the four collected types. -/
def sortTys : List Ty → List Ty
  | [] => []
  | a :: l => insertTy a (sortTys l)

/-- `types.erase(unique(...), end(types))`: drop adjacent duplicates. -/
def dedupTys : List Ty → List Ty
  | [] => []
  | [a] => [a]
  | a :: b :: l => if a = b then dedupTys (b :: l) else a :: dedupTys (b :: l)

/-- `QuadTree::merge_leaves` (src/main.cpp:127-146): return unless SPLIT-typed,
else recursively merge the children, sort+dedup their types, and when exactly
one non-SPLIT type remains assign it (children are NOT cleared).  A SPLIT-typed
node with null children dereferences null (`none`). -/
def mergeLeaves : QuadTree → Option QuadTree
  | .leaf t => if t = .split then none else some (.leaf t)
  | .node t c0 c1 c2 c3 =>
    if t ≠ .split then some (.node t c0 c1 c2 c3)
    else do
      let d0 ← mergeLeaves c0
      let d1 ← mergeLeaves c1
      let d2 ← mergeLeaves c2
      let d3 ← mergeLeaves c3
      let types := dedupTys (sortTys [d0.ty, d1.ty, d2.ty, d3.ty])
      if types.length = 1 ∧ types.headD .undef ≠ .split then
        some (.node (types.headD .undef) d0 d1 d2 d3)
      else
        some (.node .split d0 d1 d2 d3)

/-- A node of the (shape-immutable) tree is addressed by the list of child
indices from the root.  Since no operation ever clears a child pointer, every
node created during construction stays live for the whole run, so a path is a
faithful stand-in for a (weak) pointer to a node. -/
abbrev Path := List (Fin 4)

/-- Select `children[i]`. -/
def pickChild (c0 c1 c2 c3 : QuadTree) : Fin 4 → QuadTree
  | ⟨0, _⟩ => c0
  | ⟨1, _⟩ => c1
  | ⟨2, _⟩ => c2
  | ⟨_ + 3, _⟩ => c3

/-- Replace `children[i]`. -/
def putChild (c0 c1 c2 c3 : QuadTree) (i : Fin 4) (c : QuadTree) :
    QuadTree × QuadTree × QuadTree × QuadTree :=
  match i with
  | ⟨0, _⟩ => (c, c1, c2, c3)
  | ⟨1, _⟩ => (c0, c, c2, c3)
  | ⟨2, _⟩ => (c0, c1, c, c3)
  | ⟨_ + 3, _⟩ => (c0, c1, c2, c)

/-- The node reached by following a path; `none` when the path walks into a
null child pointer. -/
def subtree? (t : QuadTree) : Path → Option QuadTree
  | [] => some t
  | i :: p =>
    match t with
    | .leaf _ => none
    | .node _ c0 c1 c2 c3 => subtree? (pickChild c0 c1 c2 c3 i) p

/-- Assign the `type` field of the node at a path (the only mutation the
program performs after construction); a no-op on an invalid path. -/
def updateTyAt (t : QuadTree) : Path → Ty → QuadTree
  | [], c => t.setTy c
  | i :: p, c =>
    match t with
    | .leaf ty => .leaf ty
    | .node ty c0 c1 c2 c3 =>
      let rep := updateTyAt (pickChild c0 c1 c2 c3 i) p c
      let cs := putChild c0 c1 c2 c3 i rep
      .node ty cs.1 cs.2.1 cs.2.2.1 cs.2.2.2

/-- The `switch` on one child in `QuadTree::get_leaves`
(src/main.cpp:305-316): throw on UNDEFINED, record a leaf-typed child's
position, splice in the recursive result (`rec`) for a SPLIT-typed child. -/
def leavesChild (ty : Ty) (rec : Except Err (List Path)) (i : Fin 4) :
    Except Err (List Path) :=
  match ty with
  | .undef => .error .undefinedTree
  | .split => rec.map (List.map (fun p => i :: p))
  | _ => .ok [[i]]

/-- `QuadTree::get_leaves` (src/main.cpp:298-318), returning paths relative to
the node it is invoked on.  It iterates this node's four children without a
null check (`leaf`-shaped receiver ⇒ null dereference), pushes leaf-typed
children, recurses into SPLIT-typed ones and throws on UNDEFINED. -/
def getLeavesFrom : QuadTree → Except Err (List Path)
  | .leaf _ => .error .nullChild
  | .node _ c0 c1 c2 c3 => do
    let r0 ← leavesChild c0.ty (getLeavesFrom c0) 0
    let r1 ← leavesChild c1.ty (getLeavesFrom c1) 1
    let r2 ← leavesChild c2.ty (getLeavesFrom c2) 2
    let r3 ← leavesChild c3.ty (getLeavesFrom c3) 3
    pure (r0 ++ r1 ++ r2 ++ r3)

/-- One iteration of the sibling scan in `merge_with_sibblings`
(src/main.cpp:266-287): a SPLIT-typed sibling bumps the split counter (abort —
`none` — once it exceeds the allowed detail loss) and contributes its mean
type, any other sibling contributes its own type's numeric value. -/
def sibStep (sib : QuadTree) (mdl splits : ℕ) : Except Err (Option (Int × ℕ)) :=
  if sib.ty = .split then
    if splits + 1 > mdl then pure none
    else do
      let m ← meanType sib
      pure (some (m, splits + 1))
  else
    pure (some (tyVal sib.ty, splits))

/-- `QuadTree::merge_with_sibblings` (src/main.cpp:255-296) acting on the node
at path `p` of the root tree `t`.  Returns the C++ `bool` result together with
the updated tree; on success the parent's `type` is assigned the truncated
`int` average of the four children's stand-in values (children are NOT
cleared). -/
def mergeWithSibblings (t : QuadTree) (p : Path) (mdl : ℕ) :
    Except Err (Bool × QuadTree) :=
  match subtree? t p with
  | none => .error .danglingRef
  | some self =>
    if self.ty = .split ∨ p = [] then .error .nonLeaf
    else
      match subtree? t p.dropLast with
      | none => .error .danglingRef
      | some parent =>
        match parent with
        | .leaf _ => .error .nullSibbling
        | .node _ s0 s1 s2 s3 => do
          match ← sibStep s0 mdl 0 with
          | none => pure (false, t)
          | some (v0, sp0) =>
            match ← sibStep s1 mdl sp0 with
            | none => pure (false, t)
            | some (v1, sp1) =>
              match ← sibStep s2 mdl sp1 with
              | none => pure (false, t)
              | some (v2, sp2) =>
                match ← sibStep s3 mdl sp2 with
                | none => pure (false, t)
                | some (v3, _) =>
                  let mean := (v0 + v1 + v2 + v3).tdiv 4
                  if mean = 0 ∨ mean = 1 ∨ mean = 2 then
                    pure (true, updateTyAt t p.dropLast
                      (if mean = 0 then .black else if mean = 1 then .grey else .white))
                  else .error .invalidMean

/-- The loop state of `QuadTree::simplify` (src/main.cpp:148-173): the tree,
the leaf snapshot taken once before the loop, the `current_size`, `last_size`
and `maximum_detail_loss` variables, and the position in the stream of
`rand()` values. -/
structure SimpState where
  tree : QuadTree
  leaves : List Path
  currentSize : ℕ
  lastSize : ℕ
  mdl : ℕ
  k : ℕ
deriving DecidableEq, Repr

/-- Outcome of one check-and-iterate of the `while` loop. -/
inductive StepOut where
  | done (t : QuadTree)
  | fail (e : Err)
  | next (st : SimpState)
deriving DecidableEq, Repr

/-- One check of the `while` condition plus (if it holds) one loop body of
`QuadTree::simplify` (src/main.cpp:155-171).  `stream` supplies the successive
`rand()` results. -/
def simplifyStep (stream : ℕ → ℕ) (st : SimpState) : StepOut :=
  if st.leaves.isEmpty ∨ st.currentSize ≤ maximum_encoded_size then .done st.tree
  else
    match encodedSize st.tree with
    | .error e => .fail e
    | .ok cur =>
      if st.lastSize = cur ∧ st.mdl + 1 > 4 then .fail .hopelesslyComplex
      else
        let mdl' := if st.lastSize = cur then st.mdl + 1 else st.mdl
        let index := stream st.k % st.leaves.length
        let p := st.leaves.getD index []
        match mergeWithSibblings st.tree p mdl' with
        | .error e => .fail e
        | .ok (_, t') => .next ⟨t', st.leaves, cur, st.lastSize, mdl', st.k + 1⟩

/-- Result of a fuelled run of the simplify loop. -/
inductive SimpResult where
  | ok (t : QuadTree)
  | error (e : Err)
  | outOfFuel
deriving DecidableEq, Repr

/-- Iterate `simplifyStep` with fuel. -/
def simplifyLoop (stream : ℕ → ℕ) : ℕ → SimpState → SimpResult
  | 0, _ => .outOfFuel
  | fuel + 1, st =>
    match simplifyStep stream st with
    | .done t => .ok t
    | .fail e => .error e
    | .next st' => simplifyLoop stream fuel st'

/-- The set-up of `QuadTree::simplify` before its loop (src/main.cpp:150-153):
take the leaf snapshot and the initial encoded size. -/
def initState (t : QuadTree) : Except Err SimpState := do
  let leaves ← getLeavesFrom t
  let s ← encodedSize t
  pure ⟨t, leaves, s, s, 0, 0⟩

/-- `QuadTree::simplify` (src/main.cpp:148-173) with an injected stream of
`rand()` values and fuel bounding the number of loop iterations. -/
def simplify (stream : ℕ → ℕ) (fuel : ℕ) (t : QuadTree) : SimpResult :=
  match initState t with
  | .error e => .error e
  | .ok st => simplifyLoop stream fuel st

/-- Run `n` loop iterations, `none` when the loop exits or fails earlier. -/
def runSteps (stream : ℕ → ℕ) : ℕ → SimpState → Option SimpState
  | 0, st => some st
  | n + 1, st =>
    match simplifyStep stream st with
    | .next st' => runSteps stream n st'
    | _ => none

/-- `main` (src/main.cpp:330-371) from the point where the image has been
(maybe) decoded: a failed decode is caught and discarded (src/main.cpp:344-346)
so processing continues with the default-constructed empty image; then the
pixel matrix is built, squared, turned into a quadtree, leaf-merged,
simplified and printed.  The first component records the progress lines
written to `cerr` (observable continuation). -/
def mainFlow (decoded : Option Matrix) (mcs : ℕ) (stream : ℕ → ℕ) (fuel : ℕ) :
    List String × SimpResult :=
  let image := decoded.getD ⟨0, 0, fun _ => 0⟩
  let msgs := ["Reading file", "Needlessly building matrix", "Making matrix square"]
  match make_square image with
  | none => (msgs, .error .oobRead)
  | some square =>
    let msgs := msgs ++ ["Building quadtree"]
    match buildQT square 0 0 square.width mcs with
    | none => (msgs, .error .oobRead)
    | some t =>
      let msgs := msgs ++ ["Merging leaves"]
      match mergeLeaves t with
      | none => (msgs, .error .nullChild)
      | some t1 =>
        let msgs := msgs ++ ["Simplifying"]
        match simplify stream fuel t1 with
        | .ok t2 => (msgs, .ok t2)
        | .error e => (msgs, .error e)
        | .outOfFuel => (msgs, .outOfFuel)

/-- Well-formedness shared by every tree the program actually reaches:
no UNDEFINED types, and every SPLIT-typed node has its four children set.
(Construction establishes it and both merge passes preserve it.) -/
def wf : QuadTree → Bool
  | .leaf t => isCat t
  | .node t c0 c1 c2 c3 =>
    (isCat t || t == .split) && wf c0 && wf c1 && wf c2 && wf c3

/-- Two trees have identical child-pointer structure (types may differ). -/
def sameShape : QuadTree → QuadTree → Bool
  | .leaf _, .leaf _ => true
  | .node _ a0 a1 a2 a3, .node _ b0 b1 b2 b3 =>
    sameShape a0 b0 && sameShape a1 b1 && sameShape a2 b2 && sameShape a3 b3
  | _, _ => false

/-! Concrete inputs used by counterexamples and witnesses. -/

/-- A valid 1×1 grid (square, power-of-two side) holding a single dark
sample.  With the default minimum cell size its quadtree is a lone leaf. -/
def grid1 : Matrix := ⟨1, 1, fun _ => 0⟩

/-- A valid 2×2 grid: three dark samples and one light one. -/
def grid2 : Matrix := ⟨2, 2, fun i => if i = 3 then 255 else 0⟩

/-- A valid uniform 2×2 grid (all dark). -/
def grid2u : Matrix := ⟨2, 2, fun _ => 0⟩

/-- A 3×1 grid (width not a power of two). -/
def grid31 : Matrix := ⟨3, 1, fun i => i⟩

/-- The default-constructed `Matrix` (src/main.cpp:17): 0×0, null data. -/
def emptyGrid : Matrix := ⟨0, 0, fun _ => 0⟩

/-- An all-dark 32×32 grid; with cell size 1 its full quadtree has 1024
leaves and encoded size 2048 > 903, so `simplify` really iterates. -/
def bigGrid : Matrix := ⟨32, 32, fun _ => 0⟩

/-- The quadtree built from `bigGrid` with minimum cell size 1. -/
def bigTree : QuadTree := (buildQT bigGrid 0 0 32 1).getD (.leaf .undef)

/-- The quadtree built from `grid2` with minimum cell size 1. -/
def tree2 : QuadTree := (buildQT grid2 0 0 2 1).getD (.leaf .undef)

/-- A stream on which `rand()` always returns 0, so the simplify loop keeps
re-selecting the first snapshot leaf. -/
def zeroStream : ℕ → ℕ := fun _ => 0

/-- The simplify-loop state after `n` iterations on `bigTree` under
`zeroStream`. -/
def bigRun (n : ℕ) : Option SimpState :=
  (initState bigTree).toOption.bind (runSteps zeroStream n)

/-- What `get_leaves` guarantees about every snapshot entry, phrased against
the current tree: the path is non-empty (the root is never snapshotted),
points at a leaf-categorised node, and its parent has its children set.
Because later merges only ever assign leaf categories to type fields and
never touch the shape, these facts survive every loop iteration. -/
def goodPath (t : QuadTree) (p : Path) : Prop :=
  p ≠ [] ∧ (∃ n, subtree? t p = some n ∧ isCat n.ty = true) ∧
    (∃ m, subtree? t p.dropLast = some m ∧ m.isNode = true)

/-- The simplify-loop invariant: a well-formed tree, a non-empty snapshot of
good leaf paths, and `current_size` is an over-approximation of the tree's
actual encoded size (it lags one merge behind). -/
def Inv (st : SimpState) : Prop :=
  wf st.tree = true ∧ st.leaves ≠ [] ∧ (∀ p ∈ st.leaves, goodPath st.tree p) ∧
    ∃ s, encodedSize st.tree = .ok s ∧ s ≤ st.currentSize

/-! ### Basic well-formedness lemmas -/

theorem ok_bind {α β : Type} (a : α) (f : α → Except Err β) :
    (Except.ok a >>= f : Except Err β) = f a := rfl

theorem pure_ok {α : Type} (a : α) : (pure a : Except Err α) = .ok a := rfl

theorem isCat_iff {t : Ty} : isCat t = true ↔ t = .black ∨ t = .grey ∨ t = .white := by
  cases t <;> simp [isCat]

theorem wf_ty {t : QuadTree} (hw : wf t = true) : isCat t.ty = true ∨ t.ty = .split := by
  cases t with
  | leaf ty => simp [wf] at hw; simp [QuadTree.ty, hw]
  | node ty c0 c1 c2 c3 =>
    simp [wf] at hw
    rcases hw.1.1.1.1 with h | h
    · exact Or.inl h
    · exact Or.inr (by simpa [QuadTree.ty] using h)

theorem wf_children {ty : Ty} {c0 c1 c2 c3 : QuadTree}
    (hw : wf (.node ty c0 c1 c2 c3) = true) :
    wf c0 = true ∧ wf c1 = true ∧ wf c2 = true ∧ wf c3 = true := by
  simp [wf] at hw
  exact ⟨hw.1.1.1.2, hw.1.1.2, hw.1.2, hw.2⟩

theorem wf_pickChild {ty : Ty} {c0 c1 c2 c3 : QuadTree}
    (hw : wf (.node ty c0 c1 c2 c3) = true) (i : Fin 4) :
    wf (pickChild c0 c1 c2 c3 i) = true := by
  obtain ⟨h0, h1, h2, h3⟩ := wf_children hw
  fin_cases i <;> simpa [pickChild]

theorem wf_subtree? {t n : QuadTree} {p : Path} (hw : wf t = true)
    (h : subtree? t p = some n) : wf n = true := by
  induction p generalizing t with
  | nil => simp [subtree?] at h; exact h ▸ hw
  | cons i p ih =>
    cases t with
    | leaf ty => simp [subtree?] at h
    | node ty c0 c1 c2 c3 =>
      exact ih (wf_pickChild hw i) (by simpa [subtree?] using h)

theorem tdiv4_bounds {a : Int} (h0 : 0 ≤ a) (h8 : a ≤ 8) :
    a.tdiv 4 = 0 ∨ a.tdiv 4 = 1 ∨ a.tdiv 4 = 2 := by
  interval_cases a <;> decide

theorem encodedSize_wf {t : QuadTree} (hw : wf t = true) :
    ∃ s, encodedSize t = .ok s ∧ 2 ≤ s := by
  induction t with
  | leaf ty =>
    simp [wf] at hw
    rcases isCat_iff.mp hw with h | h | h <;> subst h <;> exact ⟨2, rfl, le_refl 2⟩
  | node ty c0 c1 c2 c3 ih0 ih1 ih2 ih3 =>
    obtain ⟨h0, h1, h2, h3⟩ := wf_children hw
    obtain ⟨s0, e0, b0⟩ := ih0 h0
    obtain ⟨s1, e1, b1⟩ := ih1 h1
    obtain ⟨s2, e2, b2⟩ := ih2 h2
    obtain ⟨s3, e3, b3⟩ := ih3 h3
    rcases wf_ty hw with h | h
    · rcases isCat_iff.mp (by simpa [QuadTree.ty] using h) with h' | h' | h' <;> subst h' <;>
        exact ⟨2, rfl, le_refl 2⟩
    · simp only [QuadTree.ty] at h
      subst h
      refine ⟨s0 + s1 + s2 + s3, ?_, by omega⟩
      simp [encodedSize, e0, e1, e2, e3, ok_bind, pure_ok]

theorem meanType_wf {t : QuadTree} (hw : wf t = true) :
    ∃ m, meanType t = .ok m ∧ 0 ≤ m ∧ m ≤ 2 := by
  induction t with
  | leaf ty =>
    simp [wf] at hw
    rcases isCat_iff.mp hw with h | h | h <;> subst h <;>
      exact ⟨_, rfl, by simp [tyVal]⟩
  | node ty c0 c1 c2 c3 ih0 ih1 ih2 ih3 =>
    obtain ⟨h0, h1, h2, h3⟩ := wf_children hw
    obtain ⟨m0, e0, b0⟩ := ih0 h0
    obtain ⟨m1, e1, b1⟩ := ih1 h1
    obtain ⟨m2, e2, b2⟩ := ih2 h2
    obtain ⟨m3, e3, b3⟩ := ih3 h3
    rcases wf_ty hw with h | h
    · rcases isCat_iff.mp (by simpa [QuadTree.ty] using h) with h' | h' | h' <;> subst h' <;>
        exact ⟨_, rfl, by simp [tyVal]⟩
    · simp only [QuadTree.ty] at h
      subst h
      refine ⟨(m0 + m1 + m2 + m3).tdiv 4, ?_, ?_⟩
      · simp [meanType, e0, e1, e2, e3, ok_bind, pure_ok]
      · have := tdiv4_bounds (a := m0 + m1 + m2 + m3) (by omega) (by omega)
        omega

theorem sibStep_wf {sib : QuadTree} (hw : wf sib = true) (mdl splits : ℕ) :
    sibStep sib mdl splits = .ok none ∨
      ∃ v sp, sibStep sib mdl splits = .ok (some (v, sp)) ∧ 0 ≤ v ∧ v ≤ 2 := by
  by_cases hs : sib.ty = .split
  · by_cases hcnt : splits + 1 > mdl
    · left; simp [sibStep, hs, hcnt, pure_ok]
    · right
      obtain ⟨m, hm, b⟩ := meanType_wf hw
      exact ⟨m, splits + 1, by simp [sibStep, hs, hcnt, hm, ok_bind, pure_ok], b⟩
  · right
    rcases wf_ty hw with h | h
    · rcases isCat_iff.mp h with h' | h' | h' <;>
        exact ⟨tyVal sib.ty, splits, by simp [sibStep, hs, pure_ok], by simp [h', tyVal]⟩
    · exact absurd h hs

theorem merge_no_invalidMean {t : QuadTree} (hw : wf t = true) (p : Path) (mdl : ℕ) :
    mergeWithSibblings t p mdl ≠ .error .invalidMean := by
  cases hself : subtree? t p with
  | none => simp [mergeWithSibblings, hself]
  | some self =>
    by_cases hsp : self.ty = .split ∨ p = []
    · simp [mergeWithSibblings, hself, hsp]
    · cases hpar : subtree? t p.dropLast with
      | none => simp [mergeWithSibblings, hself, hpar, hsp]
      | some parent =>
        cases parent with
        | leaf ty => simp [mergeWithSibblings, hself, hpar, hsp]
        | node pty s0 s1 s2 s3 =>
          obtain ⟨hw0, hw1, hw2, hw3⟩ := wf_children (wf_subtree? hw hpar)
          simp only [mergeWithSibblings, hself, hpar, if_neg hsp]
          rcases sibStep_wf hw0 mdl 0 with h0 | ⟨v0, sp0, h0, hv0, hv0'⟩ <;>
            simp only [h0, ok_bind]
          · simp [pure_ok]
          rcases sibStep_wf hw1 mdl sp0 with h1 | ⟨v1, sp1, h1, hv1, hv1'⟩ <;>
            simp only [h1, ok_bind]
          · simp [pure_ok]
          rcases sibStep_wf hw2 mdl sp1 with h2 | ⟨v2, sp2, h2, hv2, hv2'⟩ <;>
            simp only [h2, ok_bind]
          · simp [pure_ok]
          rcases sibStep_wf hw3 mdl sp2 with h3 | ⟨v3, sp3, h3, hv3, hv3'⟩ <;>
            simp only [h3, ok_bind]
          · simp [pure_ok]
          have hmean := tdiv4_bounds (a := v0 + v1 + v2 + v3) (by omega) (by omega)
          rw [if_pos hmean]
          simp [pure_ok]

/-- Claim C3: for every tree whose nodes are all classified (no undefined
type, and every SPLIT-typed node has its four children), the mean category of
the tree is one of 0/1/2 (Dark/Mid/Light), and consequently the defensive
invalid-type check in `merge_with_sibblings` can never fail: the
"merged to invalid type" error branch is unreachable. -/
theorem mean_type_always_valid (t : QuadTree) (hw : wf t = true) :
    (∃ m, meanType t = .ok m ∧ (m = 0 ∨ m = 1 ∨ m = 2)) ∧
    ∀ p mdl, mergeWithSibblings t p mdl ≠ .error .invalidMean := by
  constructor
  · obtain ⟨m, hm, b1, b2⟩ := meanType_wf hw
    exact ⟨m, hm, by omega⟩
  · intro p mdl
    exact merge_no_invalidMean hw p mdl

/-- Witness for `mean_type_always_valid` at a concrete classified tree:
one dark and three light leaves average to `(0+2+2+2)/4 = 1` (Mid). -/
theorem mean_type_always_valid_witness :
    meanType (QuadTree.node .split (.leaf .black) (.leaf .white) (.leaf .white)
      (.leaf .white)) = .ok 1 ∧
    mergeWithSibblings (QuadTree.node .split (.leaf .black) (.leaf .white)
      (.leaf .white) (.leaf .white)) [0] 0 ≠ .error .invalidMean := by
  have h := mean_type_always_valid
    (QuadTree.node .split (.leaf .black) (.leaf .white) (.leaf .white) (.leaf .white))
    (by decide)
  exact ⟨rfl, h.2 [0] 0⟩

/-- Claim C9: when the region size is at most the minimum cell size, tree
construction produces a leaf classifying the single sample at the region's
top-left corner, with thresholds sample < 51 → Dark, 51 ≤ sample < 153 → Mid,
sample ≥ 153 → Light. -/
theorem build_small_region_is_classified_leaf (m : Matrix) (x y size mcs v : ℕ)
    (hs : size ≤ mcs) (hv : mget m x y = some v) :
    buildQT m x y size mcs = some (.leaf (classify v)) ∧
    (v < 51 → classify v = .black) ∧
    (51 ≤ v → v < 153 → classify v = .grey) ∧
    (153 ≤ v → classify v = .white) := by
  refine ⟨by simp [buildQT, buildQTF, hs, hv], ?_, ?_, ?_⟩
  · intro h
    simp only [classify]
    rw [if_pos (by omega)]
  · intro h1 h2
    simp only [classify]
    rw [if_neg (by omega), if_pos (by omega)]
  · intro h
    simp only [classify]
    rw [if_neg (by omega), if_neg (by omega)]

/-- Witness for `build_small_region_is_classified_leaf`: a 1×1 grid holding
sample 100, classified Mid. -/
theorem build_small_region_is_classified_leaf_witness :
    buildQT ⟨1, 1, fun _ => 100⟩ 0 0 1 64 = some (.leaf (classify 100)) ∧
    classify 100 = .grey := by
  have h := build_small_region_is_classified_leaf ⟨1, 1, fun _ => 100⟩ 0 0 1 64 100
    (by omega) (by decide)
  exact ⟨h.1, h.2.2.1 (by omega) (by omega)⟩

/-- Claim C10: the program can reach quadtree construction on an empty 0×0
grid (a failed decode is caught and execution continues with a zero-sized
image); region size 0 is at most the minimum cell size, so the constructor
reads the sample at (0, 0), which lies outside the empty grid, and in this
total embedding the lookup fails instead of producing a classified leaf. -/
theorem empty_grid_construction_reads_out_of_bounds :
    (0 : ℕ) ≤ minimum_cell_size ∧
    mget emptyGrid 0 0 = none ∧
    buildQT emptyGrid 0 0 0 minimum_cell_size = none ∧
    (mainFlow none minimum_cell_size zeroStream 1).2 = .error .oobRead :=
  ⟨by decide, rfl, rfl, rfl⟩

/-- Counterexample to claim C6: on a failed decode the process does NOT stop
with a diagnostic — the exception is swallowed (src/main.cpp:346) and the run
continues with the default-constructed empty image, printing the later
progress lines before dying on the out-of-bounds grid read in construction. -/
theorem decode_failure_not_fatal_cex :
    mainFlow none minimum_cell_size zeroStream 1 =
      (["Reading file", "Needlessly building matrix", "Making matrix square",
        "Building quadtree"], .error .oobRead) := rfl

/-- Claim C6 (amended): whenever decoding of the input image fails, the
exception is caught and discarded and processing continues with a
substitute (default-constructed, empty) image; the run then proceeds all the
way into quadtree construction, where it performs an out-of-bounds read of
the empty grid, for every cell-size configuration, random stream and fuel. -/
theorem decode_failure_swallowed_and_continues (mcs : ℕ) (stream : ℕ → ℕ) (fuel : ℕ) :
    mainFlow none mcs stream fuel =
      (["Reading file", "Needlessly building matrix", "Making matrix square",
        "Building quadtree"], .error .oobRead) := by
  have h1 : make_square ((none : Option Matrix).getD ⟨0, 0, fun _ => 0⟩) =
      some ⟨0, 0, fun _ => 0⟩ := rfl
  have h2 : buildQT (⟨0, 0, fun _ => 0⟩ : Matrix) 0 0
      (Matrix.width ⟨0, 0, fun _ => 0⟩) mcs = none := by
    simp [buildQT, buildQTF, mget, Nat.zero_le]
  unfold mainFlow
  simp only [h1, h2]
  rfl

/-- Counterexample to claim C4: `make_square` on a 3×1 grid (valid, W ≥ 1,
H ≥ 1) reads `input(3, 0)` — the loops run to the rounded-up dimensions — and
that access lies outside the input's allocation, so in this total embedding
the resampling fails instead of returning a square grid. -/
theorem make_square_reads_out_of_bounds_cex : make_square grid31 = none := rfl

/-- Counterexample to claim C1: the quadtree of a valid 1×1 grid (square,
power-of-two, at least 1×1) is a lone leaf with encoded size 2; `simplify` on
it walks the root's null children in `get_leaves` (src/main.cpp:150,304-306)
and dies on a null dereference — a terminal state that is neither a normal
return nor the "hopelessly complex" failure. -/
theorem simplify_leaf_root_crashes_cex :
    buildQT grid1 0 0 grid1.width minimum_cell_size = some (.leaf .black) ∧
    simplify zeroStream 1 (.leaf .black) = .error .nullChild ∧
    Err.nullChild ≠ Err.hopelesslyComplex :=
  ⟨rfl, rfl, by decide⟩

/-- Counterexample to claim C8: the tree of a valid 1×1 grid has encoded size
2 ≤ 903 when `simplify` is called, yet `simplify` does not return it
unchanged: the unconditional leaf enumeration dereferences the leaf root's
null children before the budget is ever checked. -/
theorem simplify_below_budget_crashes_cex :
    encodedSize (.leaf .black) = .ok 2 ∧
    (2 : ℕ) ≤ maximum_encoded_size ∧
    buildQT grid1 0 0 grid1.width minimum_cell_size = some (.leaf .black) ∧
    ¬ simplify zeroStream 1 (.leaf .black) = .ok (.leaf .black) := by
  refine ⟨rfl, by decide, rfl, ?_⟩
  intro h
  exact absurd (rfl.symm.trans h :
    (SimpResult.error .nullChild) = .ok (.leaf .black)) (by decide)

/-- Claim C8 (amended): for every tree whose leaf enumeration succeeds (in
particular any constructed tree with a SPLIT root) and whose encoded size is
already at most the budget 903 when `simplify` is called, `simplify` performs
zero merges and immediately returns the tree unchanged, with no failure. -/
theorem simplify_below_budget_returns_unchanged (t : QuadTree) (ls : List Path)
    (s : ℕ) (stream : ℕ → ℕ) (fuel : ℕ)
    (hl : getLeavesFrom t = .ok ls) (hs : encodedSize t = .ok s)
    (hbudget : s ≤ maximum_encoded_size) (hf : 1 ≤ fuel) :
    simplify stream fuel t = .ok t := by
  obtain ⟨f, rfl⟩ : ∃ f, fuel = f + 1 := ⟨fuel - 1, by omega⟩
  simp only [simplify, initState, hl, hs, ok_bind, pure_ok, simplifyLoop, simplifyStep]
  rw [if_pos (Or.inr hbudget)]

/-- Witness for `simplify_below_budget_returns_unchanged`: the 2×2 grid's
tree has size 8 ≤ 903 and comes back unchanged. -/
theorem simplify_below_budget_returns_unchanged_witness :
    simplify zeroStream 1 tree2 = .ok tree2 :=
  simplify_below_budget_returns_unchanged tree2 [[0], [1], [2], [3]] 8 zeroStream 1
    rfl rfl (by decide) (by decide)

/-! ### Which errors each operation can produce -/

theorem error_bind {α β : Type} (e : Err) (f : α → Except Err β) :
    (Except.error e >>= f : Except Err β) = .error e := rfl

theorem meanType_err {t : QuadTree} {e : Err} (h : meanType t = .error e) :
    e = .undefinedTree ∨ e = .nullChild := by
  induction t with
  | leaf ty => cases ty <;> simp [meanType] at h <;> simp [h]
  | node ty c0 c1 c2 c3 ih0 ih1 ih2 ih3 =>
    cases ty <;> simp [meanType] at h
    · simp [h]
    case split =>
      cases h0 : meanType c0 with
      | error e0 =>
        rw [h0, error_bind] at h
        injection h with h
        exact ih0 (h ▸ h0)
      | ok m0 =>
        rw [h0, ok_bind] at h
        cases h1 : meanType c1 with
        | error e1 =>
          rw [h1, error_bind] at h
          injection h with h
          exact ih1 (h ▸ h1)
        | ok m1 =>
          rw [h1, ok_bind] at h
          cases h2 : meanType c2 with
          | error e2 =>
            rw [h2, error_bind] at h
            injection h with h
            exact ih2 (h ▸ h2)
          | ok m2 =>
            rw [h2, ok_bind] at h
            cases h3 : meanType c3 with
            | error e3 =>
              rw [h3] at h
              have h' : (Except.error e3 : Except Err Int) = .error e := h
              injection h' with h'
              exact ih3 (h' ▸ h3)
            | ok m3 =>
              rw [h3] at h
              have h' : (Except.ok ((m0 + m1 + m2 + m3).tdiv 4) : Except Err Int) =
                .error e := h
              cases h'

theorem sibStep_err {sib : QuadTree} {mdl splits : ℕ} {e : Err}
    (h : sibStep sib mdl splits = .error e) : e = .undefinedTree ∨ e = .nullChild := by
  by_cases hs : sib.ty = .split
  · by_cases hcnt : splits + 1 > mdl
    · simp [sibStep, hs, hcnt, pure_ok] at h
    · rw [sibStep, if_pos hs, if_neg hcnt] at h
      cases hm : meanType sib with
      | error e' =>
        rw [hm, error_bind] at h
        injection h with h
        exact meanType_err (h ▸ hm)
      | ok m =>
        rw [hm, ok_bind] at h
        simp [pure_ok] at h
  · simp [sibStep, hs, pure_ok] at h

theorem merge_err {t : QuadTree} {p : Path} {mdl : ℕ} {e : Err}
    (h : mergeWithSibblings t p mdl = .error e) : e ≠ .hopelesslyComplex := by
  cases hself : subtree? t p with
  | none => simp [mergeWithSibblings, hself] at h; simp [← h]
  | some self =>
    by_cases hsp : self.ty = .split ∨ p = []
    · simp [mergeWithSibblings, hself, hsp] at h; simp [← h]
    · cases hpar : subtree? t p.dropLast with
      | none => simp [mergeWithSibblings, hself, hpar, hsp] at h; simp [← h]
      | some parent =>
        cases parent with
        | leaf ty => simp [mergeWithSibblings, hself, hpar, hsp] at h; simp [← h]
        | node pty s0 s1 s2 s3 =>
          simp only [mergeWithSibblings, hself, hpar, if_neg hsp] at h
          cases h0 : sibStep s0 mdl 0 with
          | error e0 =>
            simp only [h0, error_bind] at h
            injection h with h
            rcases sibStep_err (h ▸ h0) with h' | h' <;> simp [h']
          | ok r0 =>
            simp only [h0, ok_bind] at h
            cases r0 with
            | none => simp [pure_ok] at h
            | some v0 =>
              obtain ⟨v0, sp0⟩ := v0
              cases h1 : sibStep s1 mdl sp0 with
              | error e1 =>
                simp only [h1, error_bind] at h
                injection h with h
                rcases sibStep_err (h ▸ h1) with h' | h' <;> simp [h']
              | ok r1 =>
                simp only [h1, ok_bind] at h
                cases r1 with
                | none => simp [pure_ok] at h
                | some v1 =>
                  obtain ⟨v1, sp1⟩ := v1
                  cases h2 : sibStep s2 mdl sp1 with
                  | error e2 =>
                    simp only [h2, error_bind] at h
                    injection h with h
                    rcases sibStep_err (h ▸ h2) with h' | h' <;> simp [h']
                  | ok r2 =>
                    simp only [h2, ok_bind] at h
                    cases r2 with
                    | none => simp [pure_ok] at h
                    | some v2 =>
                      obtain ⟨v2, sp2⟩ := v2
                      cases h3 : sibStep s3 mdl sp2 with
                      | error e3 =>
                        simp only [h3, error_bind] at h
                        injection h with h
                        rcases sibStep_err (h ▸ h3) with h' | h' <;> simp [h']
                      | ok r3 =>
                        simp only [h3, ok_bind] at h
                        cases r3 with
                        | none => simp [pure_ok] at h
                        | some v3 =>
                          obtain ⟨v3, sp3⟩ := v3
                          by_cases hm : (v0 + v1 + v2 + v3).tdiv 4 = 0 ∨
                              (v0 + v1 + v2 + v3).tdiv 4 = 1 ∨
                              (v0 + v1 + v2 + v3).tdiv 4 = 2
                          · simp [hm, pure_ok] at h
                          · simp only [if_neg hm] at h
                            injection h with h
                            simp [← h]

/-- Claim C2 (amended): while the loop continues, `maximum_detail_loss`
(starting at 0) is incremented exactly when the recomputed encoded size
equals `last_size` — which is set once before the loop to the initial encoded
size and never updated afterwards, so stalls are measured against the initial
size, not against the previous iteration; and the iteration fails fatally
with the hopelessly-complex error exactly when that comparison holds and the
incremented counter exceeds 4. -/
theorem detail_loss_measured_against_initial_size (stream : ℕ → ℕ) (st : SimpState)
    (cur : ℕ) (hne : st.leaves.isEmpty = false)
    (hgt : maximum_encoded_size < st.currentSize)
    (hcur : encodedSize st.tree = .ok cur) :
    (∀ st', simplifyStep stream st = .next st' →
      st'.lastSize = st.lastSize ∧
      st'.mdl = (if st.lastSize = cur then st.mdl + 1 else st.mdl)) ∧
    (simplifyStep stream st = .fail .hopelesslyComplex ↔
      st.lastSize = cur ∧ 4 < st.mdl + 1) := by
  have hcond : ¬ (st.leaves.isEmpty ∨ st.currentSize ≤ maximum_encoded_size) := by
    simp [hne]; omega
  by_cases hc : st.lastSize = cur ∧ st.mdl + 1 > 4
  · constructor
    · intro st' h
      simp only [simplifyStep, if_neg hcond, hcur, if_pos hc] at h
      cases h
    · constructor
      · intro _
        exact ⟨hc.1, by omega⟩
      · intro _
        simp only [simplifyStep, if_neg hcond, hcur, if_pos hc]
  · constructor
    · intro st' h
      simp only [simplifyStep, if_neg hcond, hcur, if_neg hc] at h
      cases hm : mergeWithSibblings st.tree
          (st.leaves.getD (stream st.k % st.leaves.length) [])
          (if st.lastSize = cur then st.mdl + 1 else st.mdl) with
      | error e => rw [hm] at h; cases h
      | ok r =>
        rw [hm] at h
        cases h
        exact ⟨rfl, rfl⟩
    · simp only [simplifyStep, if_neg hcond, hcur, if_neg hc]
      constructor
      · intro h
        cases hm : mergeWithSibblings st.tree
            (st.leaves.getD (stream st.k % st.leaves.length) [])
            (if st.lastSize = cur then st.mdl + 1 else st.mdl) with
        | error e =>
          rw [hm] at h
          cases h
          exact absurd rfl (merge_err hm)
        | ok r => rw [hm] at h; cases h
      · intro h
        exact absurd ⟨h.1, by omega⟩ hc

/-- Witness for `detail_loss_measured_against_initial_size`: a state whose
recomputed size 8 equals its `last_size` with the counter already at 4 fails
fatally. -/
theorem detail_loss_measured_against_initial_size_witness :
    simplifyStep zeroStream ⟨tree2, [[0]], 1000, 8, 4, 0⟩ = .fail .hopelesslyComplex := by
  have h := detail_loss_measured_against_initial_size zeroStream
    ⟨tree2, [[0]], 1000, 8, 4, 0⟩ 8 (by decide) (by decide) rfl
  exact h.2.mpr ⟨rfl, by decide⟩

set_option maxRecDepth 1000000 in
/-- Counterexample to claim C2: on the 32×32 all-dark grid with cell size 1
(initial encoded size 2048) under the always-zero random stream, iteration 1
merges one quartet (size 2048 → 2042), iteration 2 re-selects the now-dead
leaf and makes no progress (size stays 2042), and iteration 3 — whose
recomputed size 2042 equals the size at the end of iteration 2 — does NOT
increment `maximum_detail_loss`: it stays 1, because the code compares
against the never-updated initial size 2048. -/
theorem detail_loss_not_incremented_on_stall_cex :
    (bigRun 0).map (fun st => (st.mdl, st.lastSize, (encodedSize st.tree).toOption)) =
      some (0, 2048, some 2048) ∧
    (bigRun 1).map (fun st => (st.mdl, st.lastSize, (encodedSize st.tree).toOption)) =
      some (1, 2048, some 2042) ∧
    (bigRun 2).map (fun st => (st.mdl, st.lastSize, (encodedSize st.tree).toOption)) =
      some (1, 2048, some 2042) ∧
    (bigRun 3).map (fun st => (st.mdl, st.lastSize, (encodedSize st.tree).toOption)) =
      some (1, 2048, some 2042) := by
  refine ⟨by decide, by decide, by decide, by decide⟩

/-! ### Construction produces well-formed trees -/

theorem osome_bind {α β : Type} (a : α) (f : α → Option β) :
    (some a >>= f : Option β) = f a := rfl

theorem classify_isCat (v : ℕ) : isCat (classify v) = true := by
  unfold classify
  split_ifs <;> rfl

theorem buildQTF_wf {f : ℕ} : ∀ {m : Matrix} {x y size mcs : ℕ} {t : QuadTree},
    buildQTF f m x y size mcs = some t → wf t = true := by
  induction f with
  | zero => intro m x y size mcs t h; simp [buildQTF] at h
  | succ f ih =>
    intro m x y size mcs t h
    by_cases hs : size ≤ mcs
    · simp only [buildQTF, if_pos hs] at h
      cases hv : mget m x y with
      | none => rw [hv] at h; cases h
      | some v =>
        rw [hv] at h
        injection h with h
        exact h ▸ classify_isCat v
    · simp only [buildQTF, if_neg hs] at h
      cases h0 : buildQTF f m x y (size / 2) mcs with
      | none => rw [h0] at h; cases h
      | some d0 =>
        simp only [h0, osome_bind] at h
        cases h1 : buildQTF f m (x + size / 2) y (size / 2) mcs with
        | none => rw [h1] at h; cases h
        | some d1 =>
          simp only [h1, osome_bind] at h
          cases h2 : buildQTF f m x (y + size / 2) (size / 2) mcs with
          | none => rw [h2] at h; cases h
          | some d2 =>
            simp only [h2, osome_bind] at h
            cases h3 : buildQTF f m (x + size / 2) (y + size / 2) (size / 2) mcs with
            | none => rw [h3] at h; cases h
            | some d3 =>
              simp only [h3, osome_bind] at h
              injection h with h
              subst h
              simp [wf, ih h0, ih h1, ih h2, ih h3]

theorem buildQT_wf {m : Matrix} {x y size mcs : ℕ} {t : QuadTree}
    (h : buildQT m x y size mcs = some t) : wf t = true :=
  buildQTF_wf h

/-! ### merge_leaves: totality on well-formed trees, idempotency, shape -/

theorem mergeLeaves_wf_ok {t : QuadTree} (hw : wf t = true) :
    ∃ t', mergeLeaves t = some t' := by
  induction t with
  | leaf ty =>
    have : ty ≠ .split := by
      intro h
      rw [h] at hw
      simp [wf, isCat] at hw
    exact ⟨.leaf ty, by simp [mergeLeaves, this]⟩
  | node ty c0 c1 c2 c3 ih0 ih1 ih2 ih3 =>
    obtain ⟨h0, h1, h2, h3⟩ := wf_children hw
    by_cases hs : ty = .split
    · subst hs
      obtain ⟨d0, hd0⟩ := ih0 h0
      obtain ⟨d1, hd1⟩ := ih1 h1
      obtain ⟨d2, hd2⟩ := ih2 h2
      obtain ⟨d3, hd3⟩ := ih3 h3
      by_cases hcond : (dedupTys (sortTys [d0.ty, d1.ty, d2.ty, d3.ty])).length = 1 ∧
          (dedupTys (sortTys [d0.ty, d1.ty, d2.ty, d3.ty])).headD .undef ≠ .split
      · refine ⟨.node ((dedupTys (sortTys [d0.ty, d1.ty, d2.ty, d3.ty])).headD .undef)
          d0 d1 d2 d3, ?_⟩
        simp only [mergeLeaves, if_neg (by simp : ¬ (Ty.split ≠ Ty.split)), hd0, hd1, hd2,
          hd3, osome_bind]
        rw [if_pos hcond]
      · refine ⟨.node .split d0 d1 d2 d3, ?_⟩
        simp only [mergeLeaves, if_neg (by simp : ¬ (Ty.split ≠ Ty.split)), hd0, hd1, hd2,
          hd3, osome_bind]
        rw [if_neg hcond]
    · exact ⟨.node ty c0 c1 c2 c3, by simp [mergeLeaves, hs]⟩

theorem mergeLeaves_idem {t t' : QuadTree} (h : mergeLeaves t = some t') :
    mergeLeaves t' = some t' := by
  induction t generalizing t' with
  | leaf ty =>
    by_cases hs : ty = .split
    · simp [mergeLeaves, hs] at h
    · simp only [mergeLeaves, if_neg hs] at h
      injection h with h
      subst h
      simp [mergeLeaves, hs]
  | node ty c0 c1 c2 c3 ih0 ih1 ih2 ih3 =>
    by_cases hs : ty = .split
    · subst hs
      simp only [mergeLeaves, if_neg (by simp : ¬ (Ty.split ≠ Ty.split))] at h
      cases hm0 : mergeLeaves c0 with
      | none => rw [hm0] at h; cases h
      | some d0 =>
        simp only [hm0, osome_bind] at h
        cases hm1 : mergeLeaves c1 with
        | none => rw [hm1] at h; cases h
        | some d1 =>
          simp only [hm1, osome_bind] at h
          cases hm2 : mergeLeaves c2 with
          | none => rw [hm2] at h; cases h
          | some d2 =>
            simp only [hm2, osome_bind] at h
            cases hm3 : mergeLeaves c3 with
            | none => rw [hm3] at h; cases h
            | some d3 =>
              simp only [hm3, osome_bind] at h
              by_cases hcond : (dedupTys (sortTys [d0.ty, d1.ty, d2.ty, d3.ty])).length = 1 ∧
                  (dedupTys (sortTys [d0.ty, d1.ty, d2.ty, d3.ty])).headD .undef ≠ .split
              · rw [if_pos hcond] at h
                injection h with h
                subst h
                simp only [mergeLeaves]
                rw [if_pos hcond.2]
              · rw [if_neg hcond] at h
                injection h with h
                subst h
                simp only [mergeLeaves, if_neg (by simp : ¬ (Ty.split ≠ Ty.split)),
                  ih0 hm0, ih1 hm1, ih2 hm2, ih3 hm3, osome_bind]
                rw [if_neg hcond]
    · simp only [mergeLeaves, if_pos hs] at h
      injection h with h
      subst h
      simp [mergeLeaves, hs]

/-- Claim C5: `merge_leaves` runs successfully on every constructed tree and
is idempotent there: a second application returns exactly the tree the first
one produced. -/
theorem merge_leaves_idempotent (g : Matrix) (x y size mcs : ℕ) (t : QuadTree)
    (hb : buildQT g x y size mcs = some t) :
    ∃ t', mergeLeaves t = some t' ∧ mergeLeaves t' = some t' := by
  obtain ⟨t', h⟩ := mergeLeaves_wf_ok (buildQT_wf hb)
  exact ⟨t', h, mergeLeaves_idem h⟩

/-- Witness for `merge_leaves_idempotent`: the uniform 2×2 grid's tree
collapses once and is then a fixed point. -/
theorem merge_leaves_idempotent_witness :
    ∃ t', mergeLeaves (.node .split (.leaf .black) (.leaf .black) (.leaf .black)
      (.leaf .black)) = some t' ∧ mergeLeaves t' = some t' :=
  merge_leaves_idempotent grid2u 0 0 2 1
    (.node .split (.leaf .black) (.leaf .black) (.leaf .black) (.leaf .black)) rfl

/-! ### Collapsing a node changes only its type: shape preservation -/

theorem sameShape_refl (t : QuadTree) : sameShape t t = true := by
  induction t with
  | leaf ty => rfl
  | node ty c0 c1 c2 c3 ih0 ih1 ih2 ih3 => simp [sameShape, ih0, ih1, ih2, ih3]

theorem sameShape_setTy (t : QuadTree) (c : Ty) : sameShape t (t.setTy c) = true := by
  cases t <;> simp [QuadTree.setTy, sameShape, sameShape_refl]

theorem sameShape_updateTyAt (t : QuadTree) (q : Path) (c : Ty) :
    sameShape t (updateTyAt t q c) = true := by
  induction t generalizing q with
  | leaf ty =>
    cases q with
    | nil => exact sameShape_setTy _ _
    | cons i q => simp [updateTyAt, sameShape]
  | node ty c0 c1 c2 c3 ih0 ih1 ih2 ih3 =>
    cases q with
    | nil => exact sameShape_setTy _ _
    | cons i q =>
      fin_cases i <;>
        simp [updateTyAt, putChild, pickChild, sameShape, sameShape_refl,
          ih0, ih1, ih2, ih3]

theorem mergeLeaves_sameShape {t t' : QuadTree} (h : mergeLeaves t = some t') :
    sameShape t t' = true := by
  induction t generalizing t' with
  | leaf ty =>
    by_cases hs : ty = .split
    · simp [mergeLeaves, hs] at h
    · simp only [mergeLeaves, if_neg hs] at h
      injection h with h
      subst h
      rfl
  | node ty c0 c1 c2 c3 ih0 ih1 ih2 ih3 =>
    by_cases hs : ty = .split
    · subst hs
      simp only [mergeLeaves, if_neg (by simp : ¬ (Ty.split ≠ Ty.split))] at h
      cases hm0 : mergeLeaves c0 with
      | none => rw [hm0] at h; cases h
      | some d0 =>
        simp only [hm0, osome_bind] at h
        cases hm1 : mergeLeaves c1 with
        | none => rw [hm1] at h; cases h
        | some d1 =>
          simp only [hm1, osome_bind] at h
          cases hm2 : mergeLeaves c2 with
          | none => rw [hm2] at h; cases h
          | some d2 =>
            simp only [hm2, osome_bind] at h
            cases hm3 : mergeLeaves c3 with
            | none => rw [hm3] at h; cases h
            | some d3 =>
              simp only [hm3, osome_bind] at h
              by_cases hcond : (dedupTys (sortTys [d0.ty, d1.ty, d2.ty, d3.ty])).length = 1 ∧
                  (dedupTys (sortTys [d0.ty, d1.ty, d2.ty, d3.ty])).headD .undef ≠ .split
              · rw [if_pos hcond] at h
                injection h with h
                subst h
                simp [sameShape, ih0 hm0, ih1 hm1, ih2 hm2, ih3 hm3]
              · rw [if_neg hcond] at h
                injection h with h
                subst h
                simp [sameShape, ih0 hm0, ih1 hm1, ih2 hm2, ih3 hm3]
    · simp only [mergeLeaves, if_pos hs] at h
      injection h with h
      subst h
      exact sameShape_refl _


/-- A successful `merge_with_sibblings` either refuses (returning the tree
untouched) or assigns one leaf category to the type field of the selected
leaf's parent, leaving everything else — in particular the parent's
children — in place. -/
theorem merge_ok_cases {t : QuadTree} {p : Path} {mdl : ℕ} {b : Bool} {t' : QuadTree}
    (h : mergeWithSibblings t p mdl = .ok (b, t')) :
    (b = false ∧ t' = t) ∨
    ∃ c, isCat c = true ∧ b = true ∧ t' = updateTyAt t p.dropLast c := by
  cases hself : subtree? t p with
  | none => simp [mergeWithSibblings, hself] at h
  | some self =>
    by_cases hsp : self.ty = .split ∨ p = []
    · simp [mergeWithSibblings, hself, hsp] at h
    · cases hpar : subtree? t p.dropLast with
      | none => simp [mergeWithSibblings, hself, hpar, hsp] at h
      | some parent =>
        cases parent with
        | leaf ty => simp [mergeWithSibblings, hself, hpar, hsp] at h
        | node pty s0 s1 s2 s3 =>
          simp only [mergeWithSibblings, hself, hpar, if_neg hsp] at h
          cases h0 : sibStep s0 mdl 0 with
          | error e0 => rw [h0] at h; cases h
          | ok r0 =>
            simp only [h0, ok_bind] at h
            cases r0 with
            | none =>
              left
              have h' : (Except.ok ((false, t)) :
                  Except Err (Bool × QuadTree)) = .ok (b, t') := h
              injection h' with h'
              exact ⟨congrArg Prod.fst h'.symm, congrArg Prod.snd h'.symm⟩
            | some v0 =>
              obtain ⟨v0, sp0⟩ := v0
              cases h1 : sibStep s1 mdl sp0 with
              | error e1 => simp only [h1, error_bind] at h; cases h
              | ok r1 =>
                simp only [h1, ok_bind] at h
                cases r1 with
                | none =>
                  left
                  have h' : (Except.ok ((false, t)) :
                      Except Err (Bool × QuadTree)) = .ok (b, t') := h
                  injection h' with h'
                  exact ⟨congrArg Prod.fst h'.symm, congrArg Prod.snd h'.symm⟩
                | some v1 =>
                  obtain ⟨v1, sp1⟩ := v1
                  cases h2 : sibStep s2 mdl sp1 with
                  | error e2 => simp only [h2, error_bind] at h; cases h
                  | ok r2 =>
                    simp only [h2, ok_bind] at h
                    cases r2 with
                    | none =>
                      left
                      have h' : (Except.ok ((false, t)) :
                          Except Err (Bool × QuadTree)) = .ok (b, t') := h
                      injection h' with h'
                      exact ⟨congrArg Prod.fst h'.symm, congrArg Prod.snd h'.symm⟩
                    | some v2 =>
                      obtain ⟨v2, sp2⟩ := v2
                      cases h3 : sibStep s3 mdl sp2 with
                      | error e3 => simp only [h3, error_bind] at h; cases h
                      | ok r3 =>
                        simp only [h3, ok_bind] at h
                        cases r3 with
                        | none =>
                          left
                          have h' : (Except.ok ((false, t)) :
                              Except Err (Bool × QuadTree)) = .ok (b, t') := h
                          injection h' with h'
                          exact ⟨congrArg Prod.fst h'.symm, congrArg Prod.snd h'.symm⟩
                        | some v3 =>
                          obtain ⟨v3, sp3⟩ := v3
                          by_cases hm : (v0 + v1 + v2 + v3).tdiv 4 = 0 ∨
                              (v0 + v1 + v2 + v3).tdiv 4 = 1 ∨
                              (v0 + v1 + v2 + v3).tdiv 4 = 2
                          · simp only [if_pos hm] at h
                            right
                            have h' : (Except.ok ((true, updateTyAt t p.dropLast
                                (if (v0 + v1 + v2 + v3).tdiv 4 = 0 then Ty.black
                                 else if (v0 + v1 + v2 + v3).tdiv 4 = 1 then Ty.grey
                                 else Ty.white))) :
                                Except Err (Bool × QuadTree)) = .ok (b, t') := h
                            injection h' with h'
                            refine ⟨if (v0 + v1 + v2 + v3).tdiv 4 = 0 then Ty.black
                              else if (v0 + v1 + v2 + v3).tdiv 4 = 1 then Ty.grey
                              else Ty.white, ?_, congrArg Prod.fst h'.symm,
                              congrArg Prod.snd h'.symm⟩
                            split_ifs <;> rfl
                          · simp only [if_neg hm] at h
                            cases h

/-- Counterexample to claim C7: collapsing a uniform split via `merge_leaves`
does NOT discard the node's four children — only the type field is assigned
(src/main.cpp:144); the collapsed node still carries all four child nodes
instead of becoming a childless leaf. -/
theorem collapse_discards_children_cex :
    mergeLeaves (.node .split (.leaf .black) (.leaf .black) (.leaf .black)
      (.leaf .black)) =
      some (.node .black (.leaf .black) (.leaf .black) (.leaf .black) (.leaf .black)) ∧
    (QuadTree.node .black (.leaf .black) (.leaf .black) (.leaf .black)
      (.leaf .black)).isNode = true ∧
    QuadTree.node .black (.leaf .black) (.leaf .black) (.leaf .black) (.leaf .black) ≠
      QuadTree.leaf .black :=
  ⟨rfl, rfl, by decide⟩

/-- Claim C7 (amended): collapsing a split node into a leaf — whether by
`merge_leaves` or by `merge_with_sibblings` — assigns only the node's type
field and retains its four children, preserving the tree's child-pointer
structure exactly (which is also why the stale leaf snapshot can still be
dereferenced later); the cost function treats any leaf-typed node as a leaf
of size 2 without descending into its retained children. -/
theorem collapse_changes_only_type :
    (∀ t t' : QuadTree, mergeLeaves t = some t' → sameShape t t' = true) ∧
    (∀ (t : QuadTree) (p : Path) (mdl : ℕ) (b : Bool) (t' : QuadTree),
      mergeWithSibblings t p mdl = .ok (b, t') → sameShape t t' = true) ∧
    (∀ (ty : Ty) (c0 c1 c2 c3 : QuadTree), isCat ty = true →
      encodedSize (.node ty c0 c1 c2 c3) = .ok 2) := by
  refine ⟨fun t t' h => mergeLeaves_sameShape h, ?_, ?_⟩
  · intro t p mdl b t' h
    rcases merge_ok_cases h with ⟨_, rfl⟩ | ⟨c, _, _, rfl⟩
    · exact sameShape_refl _
    · exact sameShape_updateTyAt t p.dropLast c
  · intro ty c0 c1 c2 c3 hcat
    rcases isCat_iff.mp hcat with h | h | h <;> subst h <;> rfl

/-- Witness for `collapse_changes_only_type` at the uniform quartet: the
collapsed tree has the same shape as the original. -/
theorem collapse_changes_only_type_witness :
    sameShape (.node .split (.leaf .black) (.leaf .black) (.leaf .black) (.leaf .black))
      (.node .black (.leaf .black) (.leaf .black) (.leaf .black) (.leaf .black)) = true ∧
    encodedSize (.node .black (.leaf .black) (.leaf .black) (.leaf .black)
      (.leaf .black)) = .ok 2 :=
  ⟨collapse_changes_only_type.1 _ _ rfl,
   collapse_changes_only_type.2.2 .black _ _ _ _ rfl⟩


/-! ### Looking up paths after a type update -/

theorem subtree?_setTy {t : QuadTree} {p : Path} (hp : p ≠ []) (c : Ty) :
    subtree? (t.setTy c) p = subtree? t p := by
  cases p with
  | nil => exact absurd rfl hp
  | cons i q => cases t <;> rfl

theorem ty_setTy (t : QuadTree) (c : Ty) : (t.setTy c).ty = c := by
  cases t <;> rfl

theorem isNode_setTy (t : QuadTree) (c : Ty) : (t.setTy c).isNode = t.isNode := by
  cases t <;> rfl

theorem updateTyAt_node (ty : Ty) (c0 c1 c2 c3 : QuadTree) (i : Fin 4) (q : Path)
    (c : Ty) :
    ∃ d0 d1 d2 d3, updateTyAt (.node ty c0 c1 c2 c3) (i :: q) c = .node ty d0 d1 d2 d3 ∧
      pickChild d0 d1 d2 d3 i = updateTyAt (pickChild c0 c1 c2 c3 i) q c ∧
      ∀ j : Fin 4, j ≠ i → pickChild d0 d1 d2 d3 j = pickChild c0 c1 c2 c3 j := by
  fin_cases i <;>
    · refine ⟨_, _, _, _, rfl, rfl, ?_⟩
      intro j hj
      fin_cases j <;> simp_all [pickChild, putChild]

theorem subtree?_node_cons (ty : Ty) (c0 c1 c2 c3 : QuadTree) (i : Fin 4) (p : Path) :
    subtree? (.node ty c0 c1 c2 c3) (i :: p) = subtree? (pickChild c0 c1 c2 c3 i) p := rfl

theorem subtree?_updateTyAt_ne {q : Path} : ∀ {t : QuadTree} {p : Path} {c : Ty},
    p ≠ q →
    (subtree? (updateTyAt t q c) p).map QuadTree.ty = (subtree? t p).map QuadTree.ty := by
  induction q with
  | nil =>
    intro t p c hne
    cases p with
    | nil => exact absurd rfl hne
    | cons i p' =>
      show (subtree? (t.setTy c) (i :: p')).map QuadTree.ty =
        (subtree? t (i :: p')).map QuadTree.ty
      rw [subtree?_setTy (by simp) c]
  | cons j q' ih =>
    intro t p c hne
    cases t with
    | leaf ty => rfl
    | node ty c0 c1 c2 c3 =>
      obtain ⟨d0, d1, d2, d3, heq, hsame, hother⟩ := updateTyAt_node ty c0 c1 c2 c3 j q' c
      rw [heq]
      cases p with
      | nil => rfl
      | cons i p' =>
        rw [subtree?_node_cons, subtree?_node_cons]
        by_cases hij : i = j
        · subst hij
          rw [hsame]
          exact ih (fun h => hne (by rw [h]))
        · rw [hother i (by simpa using hij)]

theorem subtree?_updateTyAt_self {q : Path} : ∀ {t n : QuadTree} {c : Ty},
    subtree? t q = some n →
    subtree? (updateTyAt t q c) q = some (n.setTy c) := by
  induction q with
  | nil =>
    intro t n c h
    have h' : some t = some n := h
    injection h' with h'
    subst h'
    rfl
  | cons j q' ih =>
    intro t n c h
    cases t with
    | leaf ty => simp [subtree?] at h
    | node ty c0 c1 c2 c3 =>
      obtain ⟨d0, d1, d2, d3, heq, hsame, hother⟩ := updateTyAt_node ty c0 c1 c2 c3 j q' c
      rw [heq, subtree?_node_cons, hsame]
      exact ih (by rwa [subtree?_node_cons] at h)

theorem sameShape_isNode {a b : QuadTree} (h : sameShape a b = true) :
    a.isNode = b.isNode := by
  cases a <;> cases b <;> simp_all [sameShape, QuadTree.isNode]

theorem subtree?_shape {p : Path} : ∀ {t t' : QuadTree}, sameShape t t' = true →
    (subtree? t p = none ∧ subtree? t' p = none) ∨
    ∃ a b, subtree? t p = some a ∧ subtree? t' p = some b ∧ sameShape a b = true := by
  induction p with
  | nil => intro t t' h; right; exact ⟨t, t', rfl, rfl, h⟩
  | cons i p' ih =>
    intro t t' h
    cases t with
    | leaf ta =>
      cases t' with
      | leaf tb => left; exact ⟨rfl, rfl⟩
      | node tb b0 b1 b2 b3 => simp [sameShape] at h
    | node ta a0 a1 a2 a3 =>
      cases t' with
      | leaf tb => simp [sameShape] at h
      | node tb b0 b1 b2 b3 =>
        simp only [sameShape, Bool.and_eq_true] at h
        obtain ⟨⟨⟨h0, h1⟩, h2⟩, h3⟩ := h
        rw [subtree?_node_cons, subtree?_node_cons]
        fin_cases i
        · exact ih h0
        · exact ih h1
        · exact ih h2
        · exact ih h3

theorem wf_node_iff {ty : Ty} {c0 c1 c2 c3 : QuadTree} :
    wf (.node ty c0 c1 c2 c3) = true ↔
      (isCat ty = true ∨ ty = .split) ∧
        ∀ i : Fin 4, wf (pickChild c0 c1 c2 c3 i) = true := by
  constructor
  · intro hw
    refine ⟨?_, fun i => wf_pickChild hw i⟩
    rcases wf_ty hw with h | h
    · exact Or.inl h
    · exact Or.inr (by simpa [QuadTree.ty] using h)
  · rintro ⟨hh, hc⟩
    have h0 := hc 0
    have h1 := hc 1
    have h2 := hc 2
    have h3 := hc 3
    simp only [pickChild] at h0 h1 h2 h3
    rcases hh with h | h <;> simp [wf, h, h0, h1, h2, h3]

theorem wf_updateTyAt {q : Path} : ∀ {t : QuadTree} {c : Ty}, wf t = true →
    isCat c = true → wf (updateTyAt t q c) = true := by
  induction q with
  | nil =>
    intro t c hw hc
    cases t with
    | leaf ty => simpa [updateTyAt, QuadTree.setTy, wf] using hc
    | node ty c0 c1 c2 c3 =>
      obtain ⟨hch, hcs⟩ := wf_node_iff.mp hw
      exact wf_node_iff.mpr ⟨Or.inl hc, hcs⟩
  | cons j q' ih =>
    intro t c hw hc
    cases t with
    | leaf ty => exact hw
    | node ty c0 c1 c2 c3 =>
      obtain ⟨d0, d1, d2, d3, heq, hsame, hother⟩ := updateTyAt_node ty c0 c1 c2 c3 j q' c
      rw [heq]
      obtain ⟨hch, hcs⟩ := wf_node_iff.mp hw
      refine wf_node_iff.mpr ⟨hch, fun i => ?_⟩
      by_cases hij : i = j
      · subst hij
        rw [hsame]
        exact ih (hcs i) hc
      · rw [hother i hij]
        exact hcs i


/-! ### Encoded size after a collapse -/

theorem encodedSize_leaf_cat {ty : Ty} (hc : isCat ty = true) :
    encodedSize (.leaf ty) = .ok 2 := by
  rcases isCat_iff.mp hc with h | h | h <;> subst h <;> rfl

theorem encodedSize_node_cat {ty : Ty} (hc : isCat ty = true) (c0 c1 c2 c3 : QuadTree) :
    encodedSize (.node ty c0 c1 c2 c3) = .ok 2 := by
  rcases isCat_iff.mp hc with h | h | h <;> subst h <;> rfl

theorem encodedSize_setTy {t : QuadTree} {c : Ty} (hc : isCat c = true) :
    encodedSize (t.setTy c) = .ok 2 := by
  cases t with
  | leaf ty => exact encodedSize_leaf_cat hc
  | node ty c0 c1 c2 c3 => exact encodedSize_node_cat hc c0 c1 c2 c3

theorem encodedSize_node_split {c0 c1 c2 c3 : QuadTree} {s0 s1 s2 s3 : ℕ}
    (h0 : encodedSize c0 = .ok s0) (h1 : encodedSize c1 = .ok s1)
    (h2 : encodedSize c2 = .ok s2) (h3 : encodedSize c3 = .ok s3) :
    encodedSize (.node .split c0 c1 c2 c3) = .ok (s0 + s1 + s2 + s3) := by
  simp [encodedSize, h0, h1, h2, h3, ok_bind, pure_ok]

theorem encodedSize_updateTyAt {q : Path} : ∀ {t : QuadTree} {c : Ty},
    wf t = true → isCat c = true →
    ∃ s s', encodedSize t = .ok s ∧ encodedSize (updateTyAt t q c) = .ok s' ∧ s' ≤ s := by
  induction q with
  | nil =>
    intro t c hw hc
    obtain ⟨s, hs, h2s⟩ := encodedSize_wf hw
    exact ⟨s, 2, hs, encodedSize_setTy hc, h2s⟩
  | cons j q' ih =>
    intro t c hw hc
    cases t with
    | leaf ty =>
      obtain ⟨s, hs, _⟩ := encodedSize_wf hw
      exact ⟨s, s, hs, hs, le_refl s⟩
    | node ty c0 c1 c2 c3 =>
      obtain ⟨d0, d1, d2, d3, heq, hsame, hother⟩ := updateTyAt_node ty c0 c1 c2 c3 j q' c
      rw [heq]
      obtain ⟨hw0, hw1, hw2, hw3⟩ := wf_children hw
      rcases wf_ty hw with hcat | hsplit
      · have hcat' : isCat ty = true := by simpa [QuadTree.ty] using hcat
        exact ⟨2, 2, encodedSize_node_cat hcat' c0 c1 c2 c3,
          encodedSize_node_cat hcat' d0 d1 d2 d3, le_refl 2⟩
      · have hsplit' : ty = .split := by simpa [QuadTree.ty] using hsplit
        subst hsplit'
        fin_cases j
        · have hd : d0 = updateTyAt c0 q' c := by simpa [pickChild] using hsame
          have e1 : d1 = c1 := by simpa [pickChild] using hother 1 (by decide)
          have e2 : d2 = c2 := by simpa [pickChild] using hother 2 (by decide)
          have e3 : d3 = c3 := by simpa [pickChild] using hother 3 (by decide)
          subst hd e1 e2 e3
          obtain ⟨s0, s0h, hs0, hs0h, hle⟩ := ih hw0 hc
          obtain ⟨s1, hs1, -⟩ := encodedSize_wf hw1
          obtain ⟨s2, hs2, -⟩ := encodedSize_wf hw2
          obtain ⟨s3, hs3, -⟩ := encodedSize_wf hw3
          exact ⟨s0 + s1 + s2 + s3, s0h + s1 + s2 + s3,
            encodedSize_node_split hs0 hs1 hs2 hs3,
            encodedSize_node_split hs0h hs1 hs2 hs3, by omega⟩
        · have hd : d1 = updateTyAt c1 q' c := by simpa [pickChild] using hsame
          have e0 : d0 = c0 := by simpa [pickChild] using hother 0 (by decide)
          have e2 : d2 = c2 := by simpa [pickChild] using hother 2 (by decide)
          have e3 : d3 = c3 := by simpa [pickChild] using hother 3 (by decide)
          subst hd e0 e2 e3
          obtain ⟨s1, s1h, hs1, hs1h, hle⟩ := ih hw1 hc
          obtain ⟨s0, hs0, -⟩ := encodedSize_wf hw0
          obtain ⟨s2, hs2, -⟩ := encodedSize_wf hw2
          obtain ⟨s3, hs3, -⟩ := encodedSize_wf hw3
          exact ⟨s0 + s1 + s2 + s3, s0 + s1h + s2 + s3,
            encodedSize_node_split hs0 hs1 hs2 hs3,
            encodedSize_node_split hs0 hs1h hs2 hs3, by omega⟩
        · have hd : d2 = updateTyAt c2 q' c := by simpa [pickChild] using hsame
          have e0 : d0 = c0 := by simpa [pickChild] using hother 0 (by decide)
          have e1 : d1 = c1 := by simpa [pickChild] using hother 1 (by decide)
          have e3 : d3 = c3 := by simpa [pickChild] using hother 3 (by decide)
          subst hd e0 e1 e3
          obtain ⟨s2, s2h, hs2, hs2h, hle⟩ := ih hw2 hc
          obtain ⟨s0, hs0, -⟩ := encodedSize_wf hw0
          obtain ⟨s1, hs1, -⟩ := encodedSize_wf hw1
          obtain ⟨s3, hs3, -⟩ := encodedSize_wf hw3
          exact ⟨s0 + s1 + s2 + s3, s0 + s1 + s2h + s3,
            encodedSize_node_split hs0 hs1 hs2 hs3,
            encodedSize_node_split hs0 hs1 hs2h hs3, by omega⟩
        · have hd : d3 = updateTyAt c3 q' c := by simpa [pickChild] using hsame
          have e0 : d0 = c0 := by simpa [pickChild] using hother 0 (by decide)
          have e1 : d1 = c1 := by simpa [pickChild] using hother 1 (by decide)
          have e2 : d2 = c2 := by simpa [pickChild] using hother 2 (by decide)
          subst hd e0 e1 e2
          obtain ⟨s3, s3h, hs3, hs3h, hle⟩ := ih hw3 hc
          obtain ⟨s0, hs0, -⟩ := encodedSize_wf hw0
          obtain ⟨s1, hs1, -⟩ := encodedSize_wf hw1
          obtain ⟨s2, hs2, -⟩ := encodedSize_wf hw2
          exact ⟨s0 + s1 + s2 + s3, s0 + s1 + s2 + s3h,
            encodedSize_node_split hs0 hs1 hs2 hs3,
            encodedSize_node_split hs0 hs1 hs2 hs3h, by omega⟩


/-! ### What the leaf snapshot guarantees -/

theorem goodPath_child (ty : Ty) (c0 c1 c2 c3 : QuadTree) (i : Fin 4)
    (h : isCat (pickChild c0 c1 c2 c3 i).ty = true) :
    goodPath (.node ty c0 c1 c2 c3) [i] := by
  refine ⟨by simp, ⟨pickChild c0 c1 c2 c3 i, ?_, h⟩,
    ⟨.node ty c0 c1 c2 c3, rfl, rfl⟩⟩
  rw [subtree?_node_cons]
  rfl

theorem goodPath_lift (ty : Ty) (c0 c1 c2 c3 : QuadTree) (i : Fin 4) {p : Path}
    (h : goodPath (pickChild c0 c1 c2 c3 i) p) :
    goodPath (.node ty c0 c1 c2 c3) (i :: p) := by
  obtain ⟨hne, ⟨n, hn, hcat⟩, ⟨m, hm, hnode⟩⟩ := h
  refine ⟨by simp, ⟨n, by rwa [subtree?_node_cons], hcat⟩, ?_⟩
  cases p with
  | nil => exact absurd rfl hne
  | cons a p' =>
    refine ⟨m, ?_, hnode⟩
    rw [show ((i :: a :: p').dropLast) = i :: (a :: p').dropLast from rfl,
      subtree?_node_cons]
    exact hm

theorem leavesChild_mem {c : QuadTree} {i : Fin 4} {r : List Path}
    (h : leavesChild c.ty (getLeavesFrom c) i = .ok r) :
    ∀ pp ∈ r, (pp = [i] ∧ isCat c.ty = true) ∨
      ∃ p' ps, pp = i :: p' ∧ getLeavesFrom c = .ok ps ∧ p' ∈ ps := by
  intro pp hpp
  cases hty : c.ty with
  | undef => rw [hty] at h; cases h
  | split =>
    rw [hty] at h
    cases hg : getLeavesFrom c with
    | error e => rw [hg] at h; cases h
    | ok ps =>
      rw [hg] at h
      have h' : (Except.ok (ps.map (fun p => i :: p)) : Except Err (List Path)) = .ok r := h
      injection h' with h'
      subst h'
      obtain ⟨p', hp', rfl⟩ := List.mem_map.mp hpp
      exact Or.inr ⟨p', ps, rfl, rfl, hp'⟩
  | black =>
    rw [hty] at h
    injection h with h
    subst h
    simp only [List.mem_singleton] at hpp
    exact Or.inl ⟨hpp, rfl⟩
  | grey =>
    rw [hty] at h
    injection h with h
    subst h
    simp only [List.mem_singleton] at hpp
    exact Or.inl ⟨hpp, rfl⟩
  | white =>
    rw [hty] at h
    injection h with h
    subst h
    simp only [List.mem_singleton] at hpp
    exact Or.inl ⟨hpp, rfl⟩

theorem leavesChild_ex {c : QuadTree} (hw : wf c = true)
    (hrec : c.ty = .split → ∃ ps, getLeavesFrom c = .ok ps ∧ ps ≠ []) (i : Fin 4) :
    ∃ r, leavesChild c.ty (getLeavesFrom c) i = .ok r ∧ r ≠ [] := by
  rcases wf_ty hw with hcat | hsplit
  · rcases isCat_iff.mp hcat with h | h | h <;>
      exact ⟨[[i]], by rw [h]; rfl, by simp⟩
  · obtain ⟨ps, hg, hne⟩ := hrec hsplit
    refine ⟨ps.map (fun p => i :: p), ?_, by simpa using hne⟩
    rw [hsplit, hg]
    rfl

theorem getLeavesFrom_good : ∀ {t : QuadTree}, wf t = true → ∀ {ps : List Path},
    getLeavesFrom t = .ok ps → ∀ p ∈ ps, goodPath t p := by
  intro t
  induction t with
  | leaf ty =>
    intro _ ps h
    cases h
  | node ty c0 c1 c2 c3 ih0 ih1 ih2 ih3 =>
    intro hw ps h p hp
    obtain ⟨hw0, hw1, hw2, hw3⟩ := wf_children hw
    simp only [getLeavesFrom] at h
    cases hE0 : leavesChild c0.ty (getLeavesFrom c0) 0 with
    | error e => rw [hE0, error_bind] at h; cases h
    | ok r0 =>
      simp only [hE0, ok_bind] at h
      cases hE1 : leavesChild c1.ty (getLeavesFrom c1) 1 with
      | error e => simp only [hE1, error_bind] at h; cases h
      | ok r1 =>
        simp only [hE1, ok_bind] at h
        cases hE2 : leavesChild c2.ty (getLeavesFrom c2) 2 with
        | error e => simp only [hE2, error_bind] at h; cases h
        | ok r2 =>
          simp only [hE2, ok_bind] at h
          cases hE3 : leavesChild c3.ty (getLeavesFrom c3) 3 with
          | error e => simp only [hE3, error_bind] at h; cases h
          | ok r3 =>
            simp only [hE3, ok_bind] at h
            have h' : (Except.ok (r0 ++ r1 ++ r2 ++ r3) : Except Err (List Path)) =
              .ok ps := h
            injection h' with h'
            subst h'
            have mem4 : p ∈ r0 ∨ p ∈ r1 ∨ p ∈ r2 ∨ p ∈ r3 := by
              simpa [List.mem_append, or_assoc] using hp
            have finish : ∀ (i : Fin 4) (c : QuadTree), wf c = true →
                pickChild c0 c1 c2 c3 i = c →
                (∀ {qs : List Path}, getLeavesFrom c = .ok qs → ∀ q ∈ qs, goodPath c q) →
                ∀ {r : List Path}, leavesChild c.ty (getLeavesFrom c) i = .ok r →
                p ∈ r → goodPath (.node ty c0 c1 c2 c3) p := by
              intro i c hwc hpick ih r hE hpr
              rcases leavesChild_mem hE p hpr with ⟨rfl, hcat⟩ | ⟨p', qs, rfl, hg, hmem⟩
              · exact goodPath_child ty c0 c1 c2 c3 i (by rw [hpick]; exact hcat)
              · refine goodPath_lift ty c0 c1 c2 c3 i ?_
                rw [hpick]
                exact ih hg p' hmem
            rcases mem4 with hm | hm | hm | hm
            · exact finish 0 c0 hw0 rfl (fun hg q hq => ih0 hw0 hg q hq) hE0 hm
            · exact finish 1 c1 hw1 rfl (fun hg q hq => ih1 hw1 hg q hq) hE1 hm
            · exact finish 2 c2 hw2 rfl (fun hg q hq => ih2 hw2 hg q hq) hE2 hm
            · exact finish 3 c3 hw3 rfl (fun hg q hq => ih3 hw3 hg q hq) hE3 hm

theorem getLeavesFrom_ok_ne : ∀ {t : QuadTree}, wf t = true → t.isNode = true →
    ∃ ps, getLeavesFrom t = .ok ps ∧ ps ≠ [] := by
  intro t
  induction t with
  | leaf ty => intro _ h; simp [QuadTree.isNode] at h
  | node ty c0 c1 c2 c3 ih0 ih1 ih2 ih3 =>
    intro hw _
    obtain ⟨hw0, hw1, hw2, hw3⟩ := wf_children hw
    have hrec : ∀ (c : QuadTree), wf c = true →
        (wf c = true → c.isNode = true → ∃ ps, getLeavesFrom c = .ok ps ∧ ps ≠ []) →
        c.ty = .split → ∃ ps, getLeavesFrom c = .ok ps ∧ ps ≠ [] := by
      intro c hwc ih hsplit
      cases c with
      | leaf cty =>
        rw [show QuadTree.ty (.leaf cty) = cty from rfl] at hsplit
        subst hsplit
        simp [wf, isCat] at hwc
      | node cty k0 k1 k2 k3 => exact ih hwc rfl
    obtain ⟨r0, hE0, hne0⟩ := leavesChild_ex hw0 (hrec c0 hw0 (fun a b => ih0 a b)) 0
    obtain ⟨r1, hE1, hne1⟩ := leavesChild_ex hw1 (hrec c1 hw1 (fun a b => ih1 a b)) 1
    obtain ⟨r2, hE2, hne2⟩ := leavesChild_ex hw2 (hrec c2 hw2 (fun a b => ih2 a b)) 2
    obtain ⟨r3, hE3, hne3⟩ := leavesChild_ex hw3 (hrec c3 hw3 (fun a b => ih3 a b)) 3
    refine ⟨r0 ++ r1 ++ r2 ++ r3, ?_, by simp [hne0]⟩
    simp only [getLeavesFrom, hE0, hE1, hE2, hE3, ok_bind]
    rfl


/-! ### The simplify loop on well-formed trees -/

theorem merge_good_ok {t : QuadTree} {p : Path} (hw : wf t = true) (hp : goodPath t p)
    (mdl : ℕ) : ∃ b t', mergeWithSibblings t p mdl = .ok (b, t') := by
  obtain ⟨hne, ⟨n, hn, hcat⟩, ⟨m, hm, hnode⟩⟩ := hp
  have hsp : ¬ (n.ty = .split ∨ p = []) := by
    rintro (h | h)
    · rw [h] at hcat
      simp [isCat] at hcat
    · exact hne h
  cases m with
  | leaf mty => simp [QuadTree.isNode] at hnode
  | node pty s0 s1 s2 s3 =>
    obtain ⟨hw0, hw1, hw2, hw3⟩ := wf_children (wf_subtree? hw hm)
    simp only [mergeWithSibblings, hn, if_neg hsp, hm]
    rcases sibStep_wf hw0 mdl 0 with h0 | ⟨v0, sp0, h0, hv0, hv0'⟩ <;>
      simp only [h0, ok_bind]
    · exact ⟨false, t, rfl⟩
    rcases sibStep_wf hw1 mdl sp0 with h1 | ⟨v1, sp1, h1, hv1, hv1'⟩ <;>
      simp only [h1, ok_bind]
    · exact ⟨false, t, rfl⟩
    rcases sibStep_wf hw2 mdl sp1 with h2 | ⟨v2, sp2, h2, hv2, hv2'⟩ <;>
      simp only [h2, ok_bind]
    · exact ⟨false, t, rfl⟩
    rcases sibStep_wf hw3 mdl sp2 with h3 | ⟨v3, sp3, h3, hv3, hv3'⟩ <;>
      simp only [h3, ok_bind]
    · exact ⟨false, t, rfl⟩
    have hmean := tdiv4_bounds (a := v0 + v1 + v2 + v3) (by omega) (by omega)
    rw [if_pos hmean]
    exact ⟨true, _, rfl⟩

theorem goodPath_update {t : QuadTree} {p q : Path} {c : Ty} (hcat : isCat c = true)
    (hg : goodPath t p) : goodPath (updateTyAt t q c) p := by
  obtain ⟨hne, ⟨n, hn, hncat⟩, ⟨m, hm, hnode⟩⟩ := hg
  refine ⟨hne, ?_, ?_⟩
  · by_cases hpq : p = q
    · subst hpq
      exact ⟨n.setTy c, subtree?_updateTyAt_self hn, by rw [ty_setTy]; exact hcat⟩
    · have hmap := subtree?_updateTyAt_ne (t := t) (c := c) hpq
      rw [hn] at hmap
      cases hx : subtree? (updateTyAt t q c) p with
      | none => rw [hx] at hmap; simp at hmap
      | some n' =>
        rw [hx] at hmap
        simp only [Option.map_some'] at hmap
        injection hmap with hmap
        exact ⟨n', rfl, by rw [hmap]; exact hncat⟩
  · have hshape := sameShape_updateTyAt t q c
    rcases subtree?_shape (p := p.dropLast) hshape with ⟨hA, _⟩ | ⟨a, b, ha, hb, hab⟩
    · rw [hm] at hA; cases hA
    · rw [hm] at ha
      injection ha with ha
      subst ha
      exact ⟨b, hb, by rw [← sameShape_isNode hab]; exact hnode⟩

theorem step_preserves (stream : ℕ → ℕ) (st : SimpState) (hInv : Inv st) :
    (simplifyStep stream st = .done st.tree ∧
      ∃ s, encodedSize st.tree = .ok s ∧ s ≤ maximum_encoded_size) ∨
    simplifyStep stream st = .fail .hopelesslyComplex ∨
    (∃ st', simplifyStep stream st = .next st' ∧ Inv st') := by
  obtain ⟨hw, hne, hgood, s, hs, hsle⟩ := hInv
  by_cases hcond : st.leaves.isEmpty ∨ st.currentSize ≤ maximum_encoded_size
  · left
    refine ⟨by simp only [simplifyStep]; rw [if_pos hcond], s, hs, ?_⟩
    rcases hcond with hc | hc
    · exact absurd (List.isEmpty_iff.mp hc) hne
    · omega
  · right
    by_cases hstall : st.lastSize = s ∧ st.mdl + 1 > 4
    · left
      simp only [simplifyStep, if_neg hcond, hs, if_pos hstall]
    · right
      have hlen : 0 < st.leaves.length := List.length_pos.mpr hne
      have hlt : stream st.k % st.leaves.length < st.leaves.length :=
        Nat.mod_lt _ hlen
      have hmem : st.leaves.getD (stream st.k % st.leaves.length) [] ∈ st.leaves := by
        rw [List.getD_eq_getElem st.leaves [] hlt]
        exact List.getElem_mem hlt
      obtain ⟨b, t', hmerge⟩ :=
        merge_good_ok hw (hgood _ hmem)
          (if st.lastSize = s then st.mdl + 1 else st.mdl)
      refine ⟨⟨t', st.leaves, s, st.lastSize,
        if st.lastSize = s then st.mdl + 1 else st.mdl, st.k + 1⟩, ?_, ?_⟩
      · simp only [simplifyStep, if_neg hcond, hs, if_neg hstall, hmerge]
      · rcases merge_ok_cases hmerge with ⟨_, rfl⟩ | ⟨c, hcat, _, rfl⟩
        · exact ⟨hw, hne, hgood, ⟨s, hs, le_refl s⟩⟩
        · refine ⟨wf_updateTyAt hw hcat, hne,
            fun p' hp' => goodPath_update hcat (hgood p' hp'), ?_⟩
          obtain ⟨s1, s1', hs1, hs1', hle⟩ := encodedSize_updateTyAt hw hcat
          have hss : s1 = s := by
            rw [hs] at hs1
            injection hs1 with h
            exact h.symm
          have hfin : s1' ≤ s := by omega
          exact ⟨s1', hs1', hfin⟩

theorem loop_partial (stream : ℕ → ℕ) : ∀ (fuel : ℕ) (st : SimpState), Inv st →
    (∀ t', simplifyLoop stream fuel st = .ok t' →
      ∃ s, encodedSize t' = .ok s ∧ s ≤ maximum_encoded_size) ∧
    (∀ e, simplifyLoop stream fuel st = .error e → e = .hopelesslyComplex) := by
  intro fuel
  induction fuel with
  | zero =>
    intro st _
    constructor <;> intro x h <;> cases h
  | succ fuel ih =>
    intro st hInv
    rcases step_preserves stream st hInv with ⟨hdone, s, hs, hle⟩ | hfail |
        ⟨st', hnext, hInv'⟩
    · constructor
      · intro t' h
        simp only [simplifyLoop, hdone] at h
        injection h with h
        subst h
        exact ⟨s, hs, hle⟩
      · intro e h
        simp only [simplifyLoop, hdone] at h
        cases h
    · constructor
      · intro t' h
        simp only [simplifyLoop, hfail] at h
        cases h
      · intro e h
        simp only [simplifyLoop, hfail] at h
        injection h with h
        exact h.symm
    · constructor <;> intro x h <;> simp only [simplifyLoop, hnext] at h
      · exact (ih st' hInv').1 x h
      · exact (ih st' hInv').2 x h

/-- Claim C1 (amended): for every tree built from a valid grid whose root is
a SPLIT (its children are set), a `simplify` run that terminates within its
fuel has exactly two terminal states: a normal return — and then the final
tree's encoded size is at most the budget 903 — or the fatal
"hopelessly complex" error; no other error can surface.  (For a tree whose
root is a leaf, `get_leaves` dereferences null children, and a run may also
consume the whole fuel: the stale snapshot lets adversarial random streams
re-select dead leaves forever, so termination itself is not guaranteed.) -/
theorem simplify_terminal_states (g : Matrix) (mcs : ℕ) (t : QuadTree)
    (stream : ℕ → ℕ) (fuel : ℕ)
    (hb : buildQT g 0 0 g.width mcs = some t) (hroot : t.isNode = true) :
    (∀ t', simplify stream fuel t = .ok t' →
      ∃ s, encodedSize t' = .ok s ∧ s ≤ maximum_encoded_size) ∧
    (∀ e, simplify stream fuel t = .error e → e = .hopelesslyComplex) := by
  have hw := buildQT_wf hb
  obtain ⟨ps, hg, hne⟩ := getLeavesFrom_ok_ne hw hroot
  obtain ⟨s, hs, -⟩ := encodedSize_wf hw
  have hInv : Inv ⟨t, ps, s, s, 0, 0⟩ :=
    ⟨hw, hne, fun p hp => getLeavesFrom_good hw hg p hp, ⟨s, hs, le_refl s⟩⟩
  have hloop := loop_partial stream fuel _ hInv
  have hsim : simplify stream fuel t = simplifyLoop stream fuel ⟨t, ps, s, s, 0, 0⟩ := by
    simp [simplify, initState, hg, hs, ok_bind, pure_ok]
  rw [hsim]
  exact hloop

/-- Witness for `simplify_terminal_states`: the 2×2 grid's tree (size 8) is
returned unchanged, and the theorem bounds its final size by the budget. -/
theorem simplify_terminal_states_witness :
    ∃ s, encodedSize tree2 = .ok s ∧ s ≤ maximum_encoded_size := by
  have h := simplify_terminal_states grid2 1 tree2 zeroStream 1 rfl rfl
  exact h.1 tree2 rfl


/-! ### make_square on power-of-two grids -/

theorem np2_pow2 : ∀ k < 33, next_greater_power_of_2 (2 ^ k) = 2 ^ k := by decide

theorem flat_idx_lt {W H x y : ℕ} (hx : x < W) (hy : y < H) : y * W + x < W * H := by
  calc y * W + x < (y + 1) * W := by
        have : y * W + x < y * W + W := by omega
        calc y * W + x < y * W + W := this
          _ = (y + 1) * W := by ring
    _ ≤ H * W := Nat.mul_le_mul_right W hy
    _ = W * H := Nat.mul_comm H W

theorem mget_in_bounds {m : Matrix} {x y : ℕ} (hx : x < m.width) (hy : y < m.height) :
    mget m x y = some (m.data (y * m.width + x)) := by
  unfold mget
  rw [if_pos (flat_idx_lt hx hy)]

theorem mset_width (m : Matrix) (x y v : ℕ) : (mset m x y v).width = m.width := rfl

theorem mset_height (m : Matrix) (x y v : ℕ) : (mset m x y v).height = m.height := rfl

theorem col_lt {W S x : ℕ} (hdvd : W ∣ S) (hpos : 0 < W) (hS : W ≤ S) (hx : x < W) :
    x * S / W < S := by
  obtain ⟨k, rfl⟩ := hdvd
  have hk : 0 < k := by
    rcases Nat.eq_zero_or_pos k with h | h
    · subst h; omega
    · exact h
  rw [Nat.mul_comm W k, ← Nat.mul_assoc, Nat.mul_div_cancel _ hpos]
  calc x * k < W * k := by exact (Nat.mul_lt_mul_right hk).mpr hx
    _ = k * W := Nat.mul_comm W k

theorem col_inj {W S x x' : ℕ} (hdvd : W ∣ S) (hpos : 0 < W) (hS : W ≤ S)
    (h : x * S / W = x' * S / W) : x = x' := by
  obtain ⟨k, rfl⟩ := hdvd
  have hk : 0 < k := by
    rcases Nat.eq_zero_or_pos k with h' | h'
    · subst h'; omega
    · exact h'
  rw [Nat.mul_comm W k, ← Nat.mul_assoc, Nat.mul_div_cancel _ hpos,
    ← Nat.mul_assoc, Nat.mul_div_cancel _ hpos] at h
  exact Nat.eq_of_mul_eq_mul_right hk h

theorem block_decompose {S a b : ℕ} (hS : 0 < S) (hb : b < S) :
    (a * S + b) / S = a ∧ (a * S + b) % S = b := by
  constructor
  · rw [Nat.mul_comm a S, Nat.mul_add_div hS, Nat.div_eq_of_lt hb]
    rfl
  · rw [Nat.mul_comm a S, Nat.mul_add_mod, Nat.mod_eq_of_lt hb]

theorem block_ne {S a a' b b' : ℕ} (hS : 0 < S) (hb : b < S) (hb' : b' < S)
    (hne : a ≠ a' ∨ b ≠ b') : a * S + b ≠ a' * S + b' := by
  intro h
  have h1 := (block_decompose (a := a) hS hb).1
  have h2 := (block_decompose (a := a') hS hb').1
  have h3 := (block_decompose (a := a) hS hb).2
  have h4 := (block_decompose (a := a') hS hb').2
  rw [h] at h1 h3
  rcases hne with hx | hx
  · exact hx (h1.symm.trans h2)
  · exact hx (h3.symm.trans h4)


theorem opure {α : Type} (a : α) : (pure a : Option α) = some a := rfl

theorem mset_data_self {acc : Matrix} {tx ty v : ℕ} (hw : acc.width = tS) :
    (mset acc tx ty v).data (ty * tS + tx) = v := by
  simp [mset, hw]

theorem mset_data_other {acc : Matrix} {tx ty v i : ℕ} (hw : acc.width = tS)
    (hne : i ≠ ty * tS + tx) : (mset acc tx ty v).data i = acc.data i := by
  simp only [mset]
  rw [if_neg (by rw [hw]; exact hne)]

theorem inner_fold (m : Matrix) (S : ℕ) (hdvd : m.width ∣ S) (hpos : 0 < m.width)
    (hWS : m.width ≤ S) (_hSpos : 0 < S) (y : ℕ) (hy : y < m.height) :
    ∀ (L : List ℕ), (∀ x ∈ L, x < m.width) → L.Nodup → ∀ (acc : Matrix),
      acc.width = S → acc.height = S →
      ∃ acc', (L.foldlM (fun acc2 x => do
          let v ← mget m x y
          pure (mset acc2 (x * S / m.width) (y * S / m.height) v)) acc) = some acc' ∧
        acc'.width = S ∧ acc'.height = S ∧
        (∀ x ∈ L, acc'.data (y * S / m.height * S + x * S / m.width) =
          m.data (y * m.width + x)) ∧
        (∀ i, (∀ x ∈ L, i ≠ y * S / m.height * S + x * S / m.width) →
          acc'.data i = acc.data i) := by
  intro L
  induction L with
  | nil =>
    intro _ _ acc haw hah
    exact ⟨acc, rfl, haw, hah, by simp, fun i _ => rfl⟩
  | cons x L' ih =>
    intro hmem hnd acc haw hah
    have hx : x < m.width := hmem x (by simp)
    have hv := mget_in_bounds hx hy
    obtain ⟨acc', hfold, hw', hh', hA, hB⟩ :=
      ih (fun z hz => hmem z (by simp [hz])) (List.Nodup.of_cons hnd)
        (mset acc (x * S / m.width) (y * S / m.height) (m.data (y * m.width + x)))
        (by rw [mset_width]; exact haw) (by rw [mset_height]; exact hah)
    refine ⟨acc', ?_, hw', hh', ?_, ?_⟩
    · rw [List.foldlM_cons]
      simp only [hv, osome_bind, opure]
      exact hfold
    · intro z hz
      rcases List.mem_cons.mp hz with rfl | hz'
      · have hstable : ∀ x' ∈ L',
            y * S / m.height * S + z * S / m.width ≠
              y * S / m.height * S + x' * S / m.width := by
          intro x' hx'
          intro hcontra
          have hcol : z * S / m.width = x' * S / m.width := by omega
          have : z = x' := col_inj hdvd hpos hWS hcol
          exact (List.nodup_cons.mp hnd).1 (this ▸ hx')
        rw [hB _ hstable]
        exact mset_data_self haw
      · exact hA z hz'
    · intro i hni
      have hB' := hB i (fun x' hx' => hni x' (by simp [hx']))
      rw [hB']
      exact mset_data_other haw (hni x (by simp))


theorem outer_fold (m : Matrix) (S : ℕ) (hdvdW : m.width ∣ S) (hposW : 0 < m.width)
    (hWS : m.width ≤ S) (hdvdH : m.height ∣ S) (hposH : 0 < m.height)
    (hHS : m.height ≤ S) (hSpos : 0 < S) :
    ∀ (R : List ℕ), (∀ y ∈ R, y < m.height) → R.Nodup → ∀ (acc : Matrix),
      acc.width = S → acc.height = S →
      ∃ acc', (R.foldlM (fun acc2 y => (List.range m.width).foldlM (fun acc3 x => do
          let v ← mget m x y
          pure (mset acc3 (x * S / m.width) (y * S / m.height) v)) acc2) acc) =
            some acc' ∧
        acc'.width = S ∧ acc'.height = S ∧
        (∀ y ∈ R, ∀ x < m.width,
          acc'.data (y * S / m.height * S + x * S / m.width) =
            m.data (y * m.width + x)) ∧
        (∀ i, (∀ y ∈ R, ∀ x < m.width,
            i ≠ y * S / m.height * S + x * S / m.width) →
          acc'.data i = acc.data i) := by
  intro R
  induction R with
  | nil =>
    intro _ _ acc haw hah
    exact ⟨acc, rfl, haw, hah, by simp, fun i _ => rfl⟩
  | cons y R' ih =>
    intro hmem hnd acc haw hah
    have hy : y < m.height := hmem y (by simp)
    obtain ⟨acc1, hrow, h1w, h1h, hA1, hB1⟩ :=
      inner_fold m S hdvdW hposW hWS hSpos y hy (List.range m.width)
        (fun x hx => List.mem_range.mp hx) (List.nodup_range m.width) acc haw hah
    obtain ⟨acc', hfold, hw', hh', hA, hB⟩ :=
      ih (fun z hz => hmem z (by simp [hz])) (List.Nodup.of_cons hnd) acc1 h1w h1h
    have crossrow : ∀ {y' : ℕ}, y' ∈ R' → ∀ x < m.width, ∀ x' < m.width,
        y * S / m.height * S + x * S / m.width ≠
          y' * S / m.height * S + x' * S / m.width := by
      intro y' hy' x hx x' hx'
      apply block_ne hSpos (col_lt hdvdW hposW hWS hx) (col_lt hdvdW hposW hWS hx')
      left
      intro hrow_eq
      have : y = y' := col_inj hdvdH hposH hHS hrow_eq
      exact (List.nodup_cons.mp hnd).1 (this ▸ hy')
    refine ⟨acc', ?_, hw', hh', ?_, ?_⟩
    · rw [List.foldlM_cons]
      simp only [hrow, osome_bind]
      exact hfold
    · intro z hz x hx
      rcases List.mem_cons.mp hz with rfl | hz'
      · rw [hB _ (fun y' hy' x' hx' => crossrow hy' x hx x' hx')]
        exact hA1 x (List.mem_range.mpr hx)
      · exact hA z hz' x hx
    · intro i hni
      have hB' := hB i (fun y' hy' x' hx' => hni y' (by simp [hy']) x' hx')
      rw [hB']
      exact hB1 i (fun x' hx' =>
        hni y (by simp) x' (List.mem_range.mp hx'))

set_option maxHeartbeats 1000000 in
/-- Claim C4 (amended): for every input grid whose width and height are powers
of two (the shape the rest of the program actually produces and the only one
on which the resampling loops stay inside the input), `make_square` succeeds
and returns a square grid of side `size = next_pow2(max(W,H)) = max(W,H)`,
in which the source sample at `(x, y)` (for `x < W`, `y < H`) is found at
target column `x*size/W` and target row `y*size/H`, and every grid access of
the resampling stays within the input's allocation.  (For a non-power-of-two
dimension the loops run to the rounded-up bounds and read outside the input:
see the counterexample.) -/
theorem make_square_pow2 (m : Matrix) (a b : ℕ) (ha : a ≤ 32) (hb : b ≤ 32)
    (hW : m.width = 2 ^ a) (hH : m.height = 2 ^ b) :
    ∃ out, make_square m = some out ∧
      out.width = max m.width m.height ∧ out.height = max m.width m.height ∧
      max m.width m.height = next_greater_power_of_2 (max m.width m.height) ∧
      ∀ x y, x < m.width → y < m.height →
        mget out (x * out.width / m.width) (y * out.width / m.height) = mget m x y := by
  have hnpW : next_greater_power_of_2 m.width = m.width := by
    rw [hW]; exact np2_pow2 a (by omega)
  have hnpH : next_greater_power_of_2 m.height = m.height := by
    rw [hH]; exact np2_pow2 b (by omega)
  set S := max m.width m.height with hS
  have hposW : 0 < m.width := by rw [hW]; exact Nat.pos_pow_of_pos a (by omega)
  have hposH : 0 < m.height := by rw [hH]; exact Nat.pos_pow_of_pos b (by omega)
  have hWS : m.width ≤ S := le_max_left _ _
  have hHS : m.height ≤ S := le_max_right _ _
  have hSpos : 0 < S := lt_of_lt_of_le hposW hWS
  have hdvdW : m.width ∣ S := by
    rcases max_cases m.width m.height with ⟨hmax, -⟩ | ⟨hmax, hle⟩
    · rw [hS, hmax]
    · rw [hS, hmax, hW, hH]
      rw [hW, hH] at hle
      exact pow_dvd_pow 2 ((Nat.pow_le_pow_iff_right (by omega)).mp (le_of_lt hle))
  have hdvdH : m.height ∣ S := by
    rcases max_cases m.width m.height with ⟨hmax, hle⟩ | ⟨hmax, -⟩
    · rw [hS, hmax, hW, hH]
      rw [hW, hH] at hle
      exact pow_dvd_pow 2 ((Nat.pow_le_pow_iff_right (by omega)).mp hle)
    · rw [hS, hmax]
  have hSnp : S = next_greater_power_of_2 S := by
    rcases max_cases m.width m.height with ⟨hmax, -⟩ | ⟨hmax, -⟩ <;>
      rw [hS, hmax] <;> omega
  obtain ⟨out, hfold, how, hoh, hA, -⟩ :=
    outer_fold m S hdvdW hposW hWS hdvdH hposH hHS hSpos
      (List.range m.height) (fun y hy => List.mem_range.mp hy)
      (List.nodup_range m.height) ⟨S, S, fun _ => 0⟩ rfl rfl
  refine ⟨out, ?_, how, hoh, hSnp, ?_⟩
  · unfold make_square
    rw [hnpW, hnpH]
    exact hfold
  · intro x y hx hy
    rw [how]
    have hcol : x * S / m.width < S := col_lt hdvdW hposW hWS hx
    have hrowb : y * S / m.height < S := col_lt hdvdH hposH hHS hy
    have hidx : (y * S / m.height) * out.width + x * S / m.width < out.width * out.height := by
      rw [how, hoh]
      calc (y * S / m.height) * S + x * S / m.width < (y * S / m.height) * S + S := by omega
        _ = (y * S / m.height + 1) * S := by ring
        _ ≤ S * S := Nat.mul_le_mul_right S hrowb
    rw [show mget out (x * S / m.width) (y * S / m.height) =
        some (out.data ((y * S / m.height) * out.width + x * S / m.width)) from by
      unfold mget; rw [if_pos hidx]]
    rw [how, hA y (List.mem_range.mpr hy) x hx, mget_in_bounds hx hy]


/-- Witness for `make_square_pow2`: the 2×2 grid (sides 2 = 2^1) resamples
onto itself. -/
theorem make_square_pow2_witness :
    ∃ out, make_square grid2 = some out ∧
      out.width = max grid2.width grid2.height ∧
      out.height = max grid2.width grid2.height ∧
      max grid2.width grid2.height =
        next_greater_power_of_2 (max grid2.width grid2.height) ∧
      ∀ x y, x < grid2.width → y < grid2.height →
        mget out (x * out.width / grid2.width) (y * out.width / grid2.height) =
          mget grid2 x y :=
  make_square_pow2 grid2 1 1 (by omega) (by omega) rfl rfl

end TwitPng
